import Mathlib

/-!
Shallow embedding of the generic-timer TimerService
(src/timer_service/timer_service.h and its implementation file).

Modelling choices:
* Time is a Nat of milliseconds on the monotonic steady clock; deadlines are
  absolute Nat time points (expiry = now + delay, as in schedule).
* TimerId is a Nat. In the source it is uint64_t; wraparound of next_id_
  after 2^64 schedule calls is outside the model.
* The std::multimap ordered by expiry time is modelled as an association
  list kept sorted by key; C++ multimap insertion places a new element at
  the upper bound of its key range, i.e. after every element whose key is
  less than or equal to the new one, which keeps equal keys in insertion
  order (insertEntry below).
* The type-erased callback of a TimerData is identified by the timer id:
  firing a timer is recorded as an event carrying the id and the deadline
  at which the entry fired.
* Every mutation of the store happens under the single mutex in the source;
  each public operation and one iteration of the worker loop are modelled
  as atomic steps on the service state.  In the source the worker erases
  the due entry, then (for repeat different from 0) reinserts it via
  schedule_until, and only then invokes the callback; a worker tick
  therefore updates the store first, and the fired entry it reports is
  executed against the resulting store.
-/

namespace TimerSpec

/-- One scheduled timer, as in struct TimerData of timer_service.h: the id,
the repeat count (0 one shot, negative endless, positive a count) and the
period used for rescheduling.  The std::function callback is represented by
the id that identifies it in fired events. -/
structure TimerData where
  id : Nat
  rep : Int
  period : Nat
deriving DecidableEq

/-- One element of the timer store: the absolute deadline (the multimap key)
paired with the timer data. -/
abbrev Entry := Nat × TimerData

/-- Insertion into the multimap timers_: the new element goes after every
element whose key is less than or equal to its own (C++ multimap
emplace inserts at the upper bound), so the list stays sorted by deadline
and equal deadlines stay in insertion order. -/
def insertEntry (e : Entry) : List Entry → List Entry
  | [] => [e]
  | x :: xs => if x.1 ≤ e.1 then x :: insertEntry e xs else e :: x :: xs

/-- The service state: the ordered store timers_, the running_ flag and the
next_id_ counter. -/
structure TimerService where
  timers_ : List Entry
  running_ : Bool
  next_id_ : Nat
deriving DecidableEq

/-- TimerService constructor: running_(true), next_id_(1), empty store. -/
def TimerService.init : TimerService := ⟨[], true, 1⟩

/-- TimerService::schedule.  Computes expiry = now + delay, takes the lock,
assigns id = next_id_++ and emplaces (expiry, TimerData with id, repeat,
period = delay) into timers_.  Returns the new state and the id.  Note the
source does not consult running_ here. -/
def TimerService.schedule (s : TimerService) (now delay : Nat) (rep : Int) :
    TimerService × Nat :=
  let id := s.next_id_
  ({ s with timers_ := insertEntry (now + delay, ⟨id, rep, delay⟩) s.timers_,
            next_id_ := s.next_id_ + 1 }, id)

/-- TimerService::cancel body: scan timers_ from the beginning, erase the
first element whose id matches and report success; none means no match. -/
def removeById (id : Nat) : List Entry → Option (List Entry)
  | [] => none
  | x :: xs =>
    if x.2.id = id then some xs
    else (removeById id xs).map (fun ys => x :: ys)

/-- TimerService::cancel.  Under the lock, erases the first entry with the
given id and returns true, or returns false leaving the store unchanged.
The source does not consult running_ here either. -/
def TimerService.cancel (s : TimerService) (id : Nat) : TimerService × Bool :=
  match removeById id s.timers_ with
  | some ts => ({ s with timers_ := ts }, true)
  | none => (s, false)

/-- TimerService::schedule_until: emplace an already built TimerData at the
given expiry and return its id. -/
def TimerService.schedule_until (s : TimerService) (expiry : Nat) (data : TimerData) :
    TimerService × Nat :=
  ({ s with timers_ := insertEntry (expiry, data) s.timers_ }, data.id)

/-- The repeat update in the worker: if(data.rep > 0) data.rep--. -/
def decRepeat (r : Int) : Int := if 0 < r then r - 1 else r

/-- One iteration of TimerService::worker_.  If running_ is false the loop
breaks; with an empty store the worker waits; otherwise it looks at the
first (earliest-deadline) entry.  If that deadline has passed it erases the
entry, reinserts it through schedule_until at deadline + period with the
decremented repeat when repeat is not 0, and then executes the callback
(the source computes the new expiry from the erased iterator's key, a use
after erase; the model takes the pre-erase deadline value that read is
evidently meant to produce).
The returned pair is the store state in effect while the callback runs,
with some (id, deadline) describing the fired callback.  If the deadline
has not passed the worker waits until it and nothing changes. -/
def TimerService.worker_step (s : TimerService) (now : Nat) :
    TimerService × Option (Nat × Nat) :=
  if s.running_ = false then (s, none)
  else
    match s.timers_ with
    | [] => (s, none)
    | (deadline, data) :: rest =>
      if deadline ≤ now then
        let s1 : TimerService := { s with timers_ := rest }
        let s2 : TimerService :=
          if data.rep ≠ 0 then
            (s1.schedule_until (deadline + data.period)
              { data with rep := decRepeat data.rep }).1
          else s1
        (s2, some (data.id, deadline))
      else (s, none)

/-- TimerService destructor, up to joining the worker: take the lock and
clear running_.  Pending entries stay in timers_; they are not purged. -/
def TimerService.shutdown (s : TimerService) : TimerService :=
  { s with running_ := false }

/-- External stimuli applied to the service: a schedule call at a clock
reading, a cancel call, one worker iteration at a clock reading, and the
start of destruction. -/
inductive Op where
  | schedule (now delay : Nat) (rep : Int)
  | cancel (id : Nat)
  | tick (now : Nat)
  | shutdown
deriving DecidableEq

/-- Observable events of a run: a schedule returning an id with its computed
deadline, a cancel returning ok, and a callback firing (identified by the
timer id) for the entry that had the given deadline. -/
inductive Event where
  | scheduled (id deadline : Nat)
  | cancelled (id : Nat) (ok : Bool)
  | fired (id deadline : Nat)
deriving DecidableEq

/-- Apply one stimulus to the state, producing the observable events. -/
def stepOp (s : TimerService) : Op → TimerService × List Event
  | .schedule now delay rep =>
    let r := s.schedule now delay rep
    (r.1, [.scheduled r.2 (now + delay)])
  | .cancel id =>
    let r := s.cancel id
    (r.1, [.cancelled id r.2])
  | .tick now =>
    match s.worker_step now with
    | (s', some f) => (s', [.fired f.1 f.2])
    | (s', none) => (s', [])
  | .shutdown => (s.shutdown, [])

/-- Run a list of stimuli from a state, collecting the events in order. -/
def runOps (s : TimerService) : List Op → TimerService × List Event
  | [] => (s, [])
  | op :: ops =>
    let r := stepOp s op
    let r' := runOps r.1 ops
    (r'.1, r.2 ++ r'.2)

/-- Some entry with the given id is in the store. -/
def memId (i : Nat) (l : List Entry) : Prop := ∃ e ∈ l, e.2.id = i

instance (i : Nat) (l : List Entry) : Decidable (memId i l) := by
  unfold memId; infer_instance

/-- Recognize a fired event of the given timer id. -/
def isFired (i : Nat) : Event → Bool
  | .fired j _ => j = i
  | _ => false

/-- Some entry with id a sits strictly before some entry with id b in the
store's iteration order. -/
def idBefore (a b : Nat) : List Entry → Prop
  | [] => False
  | x :: xs => (x.2.id = a ∧ memId b xs) ∨ idBefore a b xs

def decidableIdBefore (a b : Nat) : (l : List Entry) → Decidable (idBefore a b l)
  | [] => isFalse (fun h => h)
  | x :: xs =>
    haveI := decidableIdBefore a b xs
    inferInstanceAs (Decidable ((x.2.id = a ∧ memId b xs) ∨ idBefore a b xs))

instance (a b : Nat) (l : List Entry) : Decidable (idBefore a b l) :=
  decidableIdBefore a b l

/-- Scanning the events from the left, no firing of b occurs before the
first firing of a: when both timers fire, the callback of a runs first. -/
def aBeforeB (a b : Nat) : List Event → Prop
  | [] => True
  | e :: evs =>
    if isFired b e then False else if isFired a e then True else aBeforeB a b evs

/-- How many times the callback of timer i fired in the event list. -/
def firedCount (evs : List Event) (i : Nat) : Nat := (evs.filter (isFired i)).length

/-- The deadlines of the fired events, in firing order. -/
def firedDeadlines (evs : List Event) : List Nat :=
  evs.filterMap (fun e => match e with | .fired _ d => some d | _ => none)

/-- The ids handed out by schedule, in call order. -/
def scheduledIds (evs : List Event) : List Nat :=
  evs.filterMap (fun e => match e with | .scheduled i _ => some i | _ => none)

/-- How many cancel calls on id i returned true. -/
def trueCancelCount (evs : List Event) (i : Nat) : Nat :=
  (evs.filter (fun e => e = .cancelled i true)).length

/-- The fired events of an event list. -/
def firedEventsOf (evs : List Event) : List Event :=
  evs.filter (fun e => match e with | .fired _ _ => true | _ => false)

/-- How many schedule calls a stimulus list contains. -/
def countSchedules : List Op → Nat
  | [] => 0
  | .schedule _ _ _ :: ops => countSchedules ops + 1
  | _ :: ops => countSchedules ops

/-- The clock readings carried by the stimuli never decrease, starting from
t: the monotonic steady clock. -/
def chrono : Nat → List Op → Bool
  | _, [] => true
  | t, .schedule now _ _ :: ops => decide (t ≤ now) && chrono now ops
  | t, .tick now :: ops => decide (t ≤ now) && chrono now ops
  | t, .cancel _ :: ops => chrono t ops
  | t, .shutdown :: ops => chrono t ops

/-- The list is non-decreasing and bounded below by d. -/
def chainLB (d : Nat) : List Nat → Prop
  | [] => True
  | x :: xs => d ≤ x ∧ chainLB x xs

/-- Every id in the store is below the next_id_ counter. -/
def idsBounded (s : TimerService) : Prop := ∀ e ∈ s.timers_, e.2.id < s.next_id_

/-- The ids in the store are pairwise distinct. -/
def idsNodup (s : TimerService) : Prop := (s.timers_.map (fun e => e.2.id)).Nodup

/-- The store is sorted by deadline (the multimap order). -/
def sortedStore (l : List Entry) : Prop := l.Pairwise (fun a b => a.1 ≤ b.1)

/-- The state invariant maintained by every operation. -/
def Inv (s : TimerService) : Prop := idsBounded s ∧ idsNodup s ∧ sortedStore s.timers_

instance (s : TimerService) : Decidable (idsBounded s) := by
  unfold idsBounded; infer_instance

instance (s : TimerService) : Decidable (idsNodup s) := by
  unfold idsNodup; infer_instance

instance (l : List Entry) : Decidable (sortedStore l) := by
  unfold sortedStore; infer_instance

instance (s : TimerService) : Decidable (Inv s) := by
  unfold Inv; infer_instance

/-- Membership after a multimap insertion: the new element plus the old ones. -/
theorem insertEntry_mem (e : Entry) (l : List Entry) (a : Entry) :
    a ∈ insertEntry e l ↔ a = e ∨ a ∈ l := by
  induction l with
  | nil => simp [insertEntry]
  | cons x xs ih =>
    simp only [insertEntry]
    split
    · simp only [List.mem_cons, ih, List.mem_cons]
      tauto
    · simp only [List.mem_cons]

/-- A multimap insertion is, up to permutation, a cons. -/
theorem insertEntry_perm (e : Entry) (l : List Entry) :
    (insertEntry e l).Perm (e :: l) := by
  induction l with
  | nil => simp [insertEntry]
  | cons x xs ih =>
    simp only [insertEntry]
    split
    · exact (List.Perm.cons x ih).trans (List.Perm.swap e x xs)
    · exact List.Perm.refl _

/-- Multimap insertion keeps the store sorted by deadline. -/
theorem insertEntry_sorted (e : Entry) (l : List Entry) (h : sortedStore l) :
    sortedStore (insertEntry e l) := by
  induction l with
  | nil => simp [insertEntry, sortedStore]
  | cons x xs ih =>
    simp only [insertEntry]
    rcases List.pairwise_cons.mp h with ⟨hx, hxs⟩
    split
    · rename_i hle
      refine List.pairwise_cons.mpr ⟨?_, ih hxs⟩
      intro a ha
      rcases (insertEntry_mem e xs a).mp ha with rfl | ha
      · exact hle
      · exact hx a ha
    · rename_i hlt
      push_neg at hlt
      refine List.pairwise_cons.mpr ⟨?_, h⟩
      intro a ha
      rcases List.mem_cons.mp ha with rfl | ha
      · exact le_of_lt hlt
      · exact le_trans (le_of_lt hlt) (hx a ha)

/-- An id is in the store after an insertion iff it is the inserted one or
was there before. -/
theorem memId_insertEntry (i : Nat) (e : Entry) (l : List Entry) :
    memId i (insertEntry e l) ↔ e.2.id = i ∨ memId i l := by
  constructor
  · rintro ⟨a, ha, hid⟩
    rcases (insertEntry_mem e l a).mp ha with rfl | ha
    · exact Or.inl hid
    · exact Or.inr ⟨a, ha, hid⟩
  · rintro (h | ⟨a, ha, hid⟩)
    · exact ⟨e, (insertEntry_mem e l e).mpr (Or.inl rfl), h⟩
    · exact ⟨a, (insertEntry_mem e l a).mpr (Or.inr ha), hid⟩

/-- The cancel scan fails exactly when no entry has the id. -/
theorem removeById_eq_none (i : Nat) (l : List Entry) :
    removeById i l = none ↔ ¬ memId i l := by
  induction l with
  | nil => simp [removeById, memId]
  | cons x xs ih =>
    simp only [removeById]
    split
    · rename_i hx
      simp only [memId]
      constructor
      · intro h; cases h
      · intro h; exact absurd ⟨x, List.mem_cons_self x xs, hx⟩ h
    · rename_i hx
      simp only [Option.map_eq_none', ih, memId]
      constructor
      · rintro h ⟨a, ha, hid⟩
        rcases List.mem_cons.mp ha with rfl | ha
        · exact hx hid
        · exact h ⟨a, ha, hid⟩
      · rintro h ⟨a, ha, hid⟩
        exact h ⟨a, List.mem_cons_of_mem x ha, hid⟩

/-- A successful cancel scan removes one element, leaving a sublist. -/
theorem removeById_sublist (i : Nat) :
    ∀ (l l' : List Entry), removeById i l = some l' → l'.Sublist l := by
  intro l
  induction l with
  | nil => intro l' h; simp [removeById] at h
  | cons x xs ih =>
    intro l' h
    simp only [removeById] at h
    split at h
    · cases h
      exact List.sublist_cons_self x xs
    · rcases Option.map_eq_some'.mp h with ⟨ys, hys, rfl⟩
      exact (ih ys hys).cons₂ x

/-- A successful cancel of some other id does not disturb membership of i. -/
theorem removeById_memId (i j : Nat) (hij : j ≠ i) :
    ∀ (l l' : List Entry), removeById i l = some l' → (memId j l' ↔ memId j l) := by
  intro l
  induction l with
  | nil => intro l' h; simp [removeById] at h
  | cons x xs ih =>
    intro l' h
    simp only [removeById] at h
    split at h
    · rename_i hx
      cases h
      simp only [memId]
      constructor
      · rintro ⟨a, ha, hid⟩; exact ⟨a, List.mem_cons_of_mem x ha, hid⟩
      · rintro ⟨a, ha, hid⟩
        rcases List.mem_cons.mp ha with rfl | ha
        · exact absurd (hx ▸ hid) hij.symm  -- a = x with x.id = i and a.id = j
        · exact ⟨a, ha, hid⟩
    · rcases Option.map_eq_some'.mp h with ⟨ys, hys, rfl⟩
      simp only [memId, List.mem_cons]
      constructor
      · rintro ⟨a, ha | ha, hid⟩
        · exact ⟨a, Or.inl ha, hid⟩
        · rcases (ih ys hys).mp ⟨a, ha, hid⟩ with ⟨b, hb, hbid⟩
          exact ⟨b, Or.inr hb, hbid⟩
      · rintro ⟨a, ha | ha, hid⟩
        · exact ⟨a, Or.inl ha, hid⟩
        · rcases (ih ys hys).mpr ⟨a, ha, hid⟩ with ⟨b, hb, hbid⟩
          exact ⟨b, Or.inr hb, hbid⟩

/-- The ids of the store after an insertion, up to permutation. -/
theorem insertEntry_map_id_perm (e : Entry) (l : List Entry) :
    ((insertEntry e l).map (fun a => a.2.id)).Perm
      (e.2.id :: l.map (fun a => a.2.id)) :=
  (insertEntry_perm e l).map _

/-- schedule preserves the state invariant. -/
theorem Inv_schedule (s : TimerService) (now delay : Nat) (rep : Int)
    (h : Inv s) : Inv (s.schedule now delay rep).1 := by
  obtain ⟨hb, hn, hs⟩ := h
  refine ⟨?_, ?_, ?_⟩
  · intro e he
    rcases (insertEntry_mem _ _ e).mp he with rfl | he
    · exact Nat.lt_succ_self _
    · exact Nat.lt_succ_of_lt (hb e he)
  · unfold idsNodup at hn ⊢
    refine ((insertEntry_map_id_perm _ _).nodup_iff).mpr ?_
    refine List.nodup_cons.mpr ⟨?_, hn⟩
    intro hmem
    rcases List.mem_map.mp hmem with ⟨a, ha, hid⟩
    exact absurd (hid ▸ hb a ha) (lt_irrefl _)
  · exact insertEntry_sorted _ _ hs

/-- cancel preserves the state invariant. -/
theorem Inv_cancel (s : TimerService) (i : Nat) (h : Inv s) :
    Inv (s.cancel i).1 := by
  obtain ⟨hb, hn, hs⟩ := h
  unfold TimerService.cancel
  cases hrem : removeById i s.timers_ with
  | none => exact ⟨hb, hn, hs⟩
  | some l' =>
    have hsub := removeById_sublist i _ _ hrem
    refine ⟨?_, ?_, ?_⟩
    · intro e he; exact hb e (hsub.subset he)
    · exact List.Nodup.sublist (hsub.map _) hn
    · exact List.Pairwise.sublist hsub hs

/-- One worker iteration preserves the state invariant. -/
theorem Inv_worker_step (s : TimerService) (now : Nat) (h : Inv s) :
    Inv (s.worker_step now).1 := by
  obtain ⟨hb, hn, hs⟩ := h
  unfold TimerService.worker_step
  split
  · exact ⟨hb, hn, hs⟩
  · cases htm : s.timers_ with
    | nil => exact ⟨hb, hn, hs⟩
    | cons hd rest =>
      obtain ⟨deadline, data⟩ := hd
      simp only
      split
      · have hbr : ∀ e ∈ rest, e.2.id < s.next_id_ := by
          intro e he; exact hb e (htm ▸ List.mem_cons_of_mem _ he)
        have hnr : (rest.map (fun a => a.2.id)).Nodup := by
          have := hn
          unfold idsNodup at this
          rw [htm] at this
          exact (List.nodup_cons.mp this).2
        have hsr : sortedStore rest := by
          have := hs
          rw [htm] at this
          exact (List.pairwise_cons.mp this).2
        have hid_not : data.id ∉ rest.map (fun a => a.2.id) := by
          have := hn
          unfold idsNodup at this
          rw [htm] at this
          exact (List.nodup_cons.mp this).1
        split
        · refine ⟨?_, ?_, ?_⟩
          · intro e he
            rcases (insertEntry_mem _ _ e).mp he with rfl | he
            · exact hb (deadline, data) (by rw [htm]; exact List.mem_cons_self _ _)
            · exact hbr e he
          · unfold idsNodup
            refine ((insertEntry_map_id_perm _ _).nodup_iff).mpr ?_
            exact List.nodup_cons.mpr ⟨hid_not, hnr⟩
          · exact insertEntry_sorted _ _ hsr
        · exact ⟨hbr, hnr, hsr⟩
      · exact ⟨hb, hn, hs⟩

/-- shutdown preserves the state invariant. -/
theorem Inv_shutdown (s : TimerService) (h : Inv s) : Inv s.shutdown := h

/-- The state reached by a worker tick, whether or not something fired. -/
theorem stepOp_tick_state (s : TimerService) (now : Nat) :
    (stepOp s (.tick now)).1 = (s.worker_step now).1 := by
  cases h : s.worker_step now with
  | mk s' f => cases f <;> simp [stepOp, h]

/-- Every stimulus preserves the state invariant. -/
theorem Inv_stepOp (s : TimerService) (op : Op) (h : Inv s) :
    Inv (stepOp s op).1 := by
  cases op with
  | schedule now delay rep => exact Inv_schedule s now delay rep h
  | cancel i => exact Inv_cancel s i h
  | tick now => rw [stepOp_tick_state]; exact Inv_worker_step s now h
  | shutdown => exact Inv_shutdown s h

/-- A whole run preserves the state invariant. -/
theorem Inv_runOps (ops : List Op) (s : TimerService) (h : Inv s) :
    Inv (runOps s ops).1 := by
  induction ops generalizing s with
  | nil => exact h
  | cons op ops ih => exact ih _ (Inv_stepOp s op h)

/-- The initial state satisfies the invariant. -/
theorem Inv_init : Inv TimerService.init := by
  refine ⟨?_, ?_, ?_⟩ <;> simp [TimerService.init, idsBounded, idsNodup, sortedStore]

/-- No stimulus ever decreases the next_id_ counter. -/
theorem next_id_stepOp (s : TimerService) (op : Op) :
    s.next_id_ ≤ (stepOp s op).1.next_id_ := by
  cases op with
  | schedule now delay rep => exact Nat.le_succ _
  | cancel i =>
    show s.next_id_ ≤ (s.cancel i).1.next_id_
    unfold TimerService.cancel
    split <;> exact le_refl _
  | tick now =>
    rw [stepOp_tick_state]
    unfold TimerService.worker_step
    split
    · exact le_refl _
    · cases s.timers_ with
      | nil => exact le_refl _
      | cons hd rest =>
        obtain ⟨deadline, data⟩ := hd
        simp only
        split
        · split <;> simp [TimerService.schedule_until]
        · exact le_refl _
  | shutdown => exact le_refl _

/-- next_id_ never decreases over a run. -/
theorem next_id_runOps (ops : List Op) (s : TimerService) :
    s.next_id_ ≤ (runOps s ops).1.next_id_ := by
  induction ops generalizing s with
  | nil => exact le_refl _
  | cons op ops ih => exact le_trans (next_id_stepOp s op) (ih _)

/-- Running a concatenation: the final state comes from running the pieces
in sequence. -/
theorem runOps_append_fst (l₁ : List Op) (s : TimerService) (l₂ : List Op) :
    (runOps s (l₁ ++ l₂)).1 = (runOps (runOps s l₁).1 l₂).1 := by
  induction l₁ generalizing s with
  | nil => rfl
  | cons op ops ih =>
    simp only [List.cons_append, runOps]
    exact ih _

/-- Running a concatenation: the events concatenate in sequence. -/
theorem runOps_append_snd (l₁ : List Op) (s : TimerService) (l₂ : List Op) :
    (runOps s (l₁ ++ l₂)).2 = (runOps s l₁).2 ++ (runOps (runOps s l₁).1 l₂).2 := by
  induction l₁ generalizing s with
  | nil => rfl
  | cons op ops ih =>
    simp only [List.cons_append, runOps, List.append_assoc]
    exact congrArg _ (ih _)

/-- Fired counts add over concatenated event lists. -/
theorem firedCount_append (a b : List Event) (i : Nat) :
    firedCount (a ++ b) i = firedCount a i + firedCount b i := by
  unfold firedCount
  rw [List.filter_append, List.length_append]

/-- Successful-cancel counts add over concatenated event lists. -/
theorem trueCancelCount_append (a b : List Event) (i : Nat) :
    trueCancelCount (a ++ b) i = trueCancelCount a i + trueCancelCount b i := by
  unfold trueCancelCount
  rw [List.filter_append, List.length_append]

/-- Fired deadlines concatenate over concatenated event lists. -/
theorem firedDeadlines_append (a b : List Event) :
    firedDeadlines (a ++ b) = firedDeadlines a ++ firedDeadlines b := by
  unfold firedDeadlines
  rw [List.filterMap_append]

/-- Scheduled ids concatenate over concatenated event lists. -/
theorem scheduledIds_append (a b : List Event) :
    scheduledIds (a ++ b) = scheduledIds a ++ scheduledIds b := by
  unfold scheduledIds
  rw [List.filterMap_append]

/-- Fired events concatenate over concatenated event lists. -/
theorem firedEventsOf_append (a b : List Event) :
    firedEventsOf (a ++ b) = firedEventsOf a ++ firedEventsOf b := by
  unfold firedEventsOf
  rw [List.filter_append]

/-- A due worker iteration on a repeating head entry erases it and reinserts
it at deadline + period with the decremented repeat, reporting the firing. -/
theorem worker_step_fire_repeat (s : TimerService) (deadline : Nat)
    (data : TimerData) (rest : List Entry) (now : Nat)
    (hrun : s.running_ = true) (htm : s.timers_ = (deadline, data) :: rest)
    (hrep : data.rep ≠ 0) (hdue : deadline ≤ now) :
    s.worker_step now =
      (⟨insertEntry (deadline + data.period,
          ⟨data.id, decRepeat data.rep, data.period⟩) rest,
        s.running_, s.next_id_⟩,
       some (data.id, deadline)) := by
  unfold TimerService.worker_step TimerService.schedule_until
  rw [htm]
  simp [hrun, hdue, hrep]

/-- A due worker iteration on a one-shot head entry erases it and does not
reinsert it, reporting the firing. -/
theorem worker_step_fire_once (s : TimerService) (deadline : Nat)
    (data : TimerData) (rest : List Entry) (now : Nat)
    (hrun : s.running_ = true) (htm : s.timers_ = (deadline, data) :: rest)
    (hrep : data.rep = 0) (hdue : deadline ≤ now) :
    s.worker_step now = (⟨rest, s.running_, s.next_id_⟩, some (data.id, deadline)) := by
  unfold TimerService.worker_step
  rw [htm]
  simp [hrun, hdue, hrep]

/-- cancel returns true exactly when an entry with the id is pending. -/
theorem cancel_true_iff (s : TimerService) (i : Nat) :
    (s.cancel i).2 = true ↔ memId i s.timers_ := by
  unfold TimerService.cancel
  cases hrem : removeById i s.timers_ with
  | none =>
    simp only []
    constructor
    · intro h; cases h
    · intro h
      exact absurd h ((removeById_eq_none i s.timers_).mp hrem)
  | some l' =>
    simp only []
    constructor
    · intro _
      by_contra hmem
      rw [(removeById_eq_none i s.timers_).mpr hmem] at hrem
      cases hrem
    · intro _; trivial

/-- A failed cancel leaves the whole state unchanged. -/
theorem cancel_false_unchanged (s : TimerService) (i : Nat)
    (h : (s.cancel i).2 = false) : (s.cancel i).1 = s := by
  unfold TimerService.cancel at h ⊢
  cases hrem : removeById i s.timers_ with
  | none => rfl
  | some l' => rw [hrem] at h; cases h

/-- Once running_ is false, one stimulus keeps it false and fires nothing. -/
theorem stopped_step (s : TimerService) (op : Op) (h : s.running_ = false) :
    (stepOp s op).1.running_ = false ∧ firedEventsOf (stepOp s op).2 = [] := by
  cases op with
  | schedule now delay rep => exact ⟨h, rfl⟩
  | cancel i =>
    refine ⟨?_, rfl⟩
    show (s.cancel i).1.running_ = false
    unfold TimerService.cancel
    split <;> exact h
  | tick now =>
    have hws : s.worker_step now = (s, none) := by
      unfold TimerService.worker_step
      rw [h]
      simp
    constructor <;> simp [stepOp, hws, h, firedEventsOf]
  | shutdown => exact ⟨rfl, rfl⟩

/-- Once running_ is false, a whole run keeps it false and fires nothing:
the worker loop has exited and no callback ever executes again. -/
theorem stopped_run (ops : List Op) (s : TimerService) (h : s.running_ = false) :
    (runOps s ops).1.running_ = false ∧ firedEventsOf (runOps s ops).2 = [] := by
  induction ops generalizing s with
  | nil => exact ⟨h, rfl⟩
  | cons op ops ih =>
    obtain ⟨h1, h2⟩ := stopped_step s op h
    obtain ⟨h3, h4⟩ := ih _ h1
    refine ⟨h3, ?_⟩
    show firedEventsOf ((stepOp s op).2 ++ (runOps (stepOp s op).1 ops).2) = []
    rw [firedEventsOf_append, h2, h4]
    rfl

/-- Exhaustive description of a worker tick: either nothing happens, or the
head entry is due and fires, with the store updated as the worker does. -/
theorem tick_cases (s : TimerService) (now : Nat) :
    stepOp s (.tick now) = (s, []) ∨
    ∃ deadline data rest, s.running_ = true ∧ s.timers_ = (deadline, data) :: rest ∧
      deadline ≤ now ∧
      stepOp s (.tick now) =
        (⟨if data.rep ≠ 0 then
            insertEntry (deadline + data.period,
              ⟨data.id, decRepeat data.rep, data.period⟩) rest
          else rest,
          s.running_, s.next_id_⟩,
         [.fired data.id deadline]) := by
  by_cases hr : s.running_ = true
  · cases htm : s.timers_ with
    | nil =>
      left
      have hws : s.worker_step now = (s, none) := by
        unfold TimerService.worker_step
        rw [htm]
        simp [hr]
      simp [stepOp, hws]
    | cons hd rest =>
      obtain ⟨deadline, data⟩ := hd
      by_cases hdue : deadline ≤ now
      · right
        refine ⟨deadline, data, rest, hr, rfl, hdue, ?_⟩
        by_cases hrep : data.rep = 0
        · rw [if_neg (by simpa using hrep)]
          simp [stepOp, worker_step_fire_once s deadline data rest now hr htm hrep hdue]
        · rw [if_pos hrep]
          simp [stepOp, worker_step_fire_repeat s deadline data rest now hr htm hrep hdue]
      · left
        have hws : s.worker_step now = (s, none) := by
          unfold TimerService.worker_step
          rw [htm]
          simp [hr, hdue]
        simp [stepOp, hws]
  · left
    rw [Bool.not_eq_true] at hr
    have hws : s.worker_step now = (s, none) := by
      unfold TimerService.worker_step
      rw [hr]
      simp
    simp [stepOp, hws]

/-- An id that is absent from the store and below the id counter stays
absent after one stimulus, stays below the counter, and does not fire. -/
theorem absent_step (s : TimerService) (op : Op) (i : Nat)
    (hlt : i < s.next_id_) (hm : ¬ memId i s.timers_) :
    ¬ memId i (stepOp s op).1.timers_ ∧ i < (stepOp s op).1.next_id_ ∧
      firedCount (stepOp s op).2 i = 0 := by
  cases op with
  | schedule now delay rep =>
    refine ⟨?_, Nat.lt_succ_of_lt hlt, rfl⟩
    intro h
    rcases (memId_insertEntry _ _ _).mp h with h | h
    · exact absurd (h ▸ hlt) (lt_irrefl _)
    · exact hm h
  | cancel c =>
    show ¬ memId i (s.cancel c).1.timers_ ∧ i < (s.cancel c).1.next_id_ ∧
      firedCount [Event.cancelled c (s.cancel c).2] i = 0
    unfold TimerService.cancel
    cases hrem : removeById c s.timers_ with
    | none => exact ⟨hm, hlt, rfl⟩
    | some l' =>
      refine ⟨?_, hlt, rfl⟩
      rintro ⟨a, ha, hid⟩
      exact hm ⟨a, (removeById_sublist c _ _ hrem).subset ha, hid⟩
  | tick now =>
    rcases tick_cases s now with h | ⟨deadline, data, rest, hrun, htm, hdue, h⟩
    · rw [h]; exact ⟨hm, hlt, rfl⟩
    · rw [h]
      have hdi : data.id ≠ i := by
        intro hc
        exact hm ⟨(deadline, data), htm ▸ List.mem_cons_self _ _, hc⟩
      have hrest : ¬ memId i rest := by
        rintro ⟨a, ha, hid⟩
        exact hm ⟨a, htm ▸ List.mem_cons_of_mem _ ha, hid⟩
      refine ⟨?_, hlt, ?_⟩
      · simp only
        split
        · intro hmem
          rcases (memId_insertEntry _ _ _).mp hmem with hc | hc
          · exact hdi hc
          · exact hrest hc
        · exact hrest
      · simp [firedCount, isFired, hdi]
  | shutdown => exact ⟨hm, hlt, rfl⟩

/-- An id that is absent from the store and below the id counter never
fires again in any continuation of the run, and never reappears. -/
theorem absent_run (ops : List Op) (s : TimerService) (i : Nat)
    (hlt : i < s.next_id_) (hm : ¬ memId i s.timers_) :
    ¬ memId i (runOps s ops).1.timers_ ∧ i < (runOps s ops).1.next_id_ ∧
      firedCount (runOps s ops).2 i = 0 := by
  induction ops generalizing s with
  | nil => exact ⟨hm, hlt, rfl⟩
  | cons op ops ih =>
    obtain ⟨h1, h2, h3⟩ := absent_step s op i hlt hm
    obtain ⟨h4, h5, h6⟩ := ih _ h2 h1
    refine ⟨h4, h5, ?_⟩
    show firedCount ((stepOp s op).2 ++ (runOps (stepOp s op).1 ops).2) i = 0
    rw [firedCount_append, h3, h6]

/-- Unfolding a run one stimulus at a time. -/
theorem runOps_cons (s : TimerService) (op : Op) (ops : List Op) :
    runOps s (op :: ops) =
      ((runOps (stepOp s op).1 ops).1,
        (stepOp s op).2 ++ (runOps (stepOp s op).1 ops).2) := rfl

/-- Running r + 1 due ticks against a store holding exactly one entry with
nonnegative repeat r fires it r + 1 times, at deadlines d, d + p, up to
d + r * p, and empties the store: the repeat count is decremented at each
firing and the entry is not reinserted once it reaches 0. -/
theorem single_timer_run (r : Nat) :
    ∀ (d i p n T : Nat), d + r * p ≤ T →
      runOps ⟨[(d, ⟨i, (r : Int), p⟩)], true, n⟩ (List.replicate (r + 1) (.tick T)) =
        (⟨[], true, n⟩, (List.range (r + 1)).map (fun k => .fired i (d + k * p))) := by
  induction r with
  | zero =>
    intro d i p n T hT
    have hdue : d ≤ T := le_trans (Nat.le_add_right d (0 * p)) hT
    have hfire := worker_step_fire_once ⟨[(d, ⟨i, (0 : Int), p⟩)], true, n⟩ d
      ⟨i, (0 : Int), p⟩ [] T rfl rfl rfl hdue
    simp [runOps, stepOp, hfire, List.range_succ]
  | succ r ih =>
    intro d i p n T hT
    have hdue : d ≤ T := le_trans (Nat.le_add_right d ((r + 1) * p)) hT
    have hrep : ((r + 1 : Nat) : Int) ≠ 0 := by
      exact_mod_cast Nat.succ_ne_zero r
    have hdec : decRepeat ((r + 1 : Nat) : Int) = (r : Int) := by
      unfold decRepeat
      rw [if_pos]
      · push_cast
        ring
      · exact_mod_cast Nat.succ_pos r
    have hfire := worker_step_fire_repeat ⟨[(d, ⟨i, ((r + 1 : Nat) : Int), p⟩)], true, n⟩
      d ⟨i, ((r + 1 : Nat) : Int), p⟩ [] T rfl rfl hrep hdue
    rw [hdec] at hfire
    have hT' : (d + p) + r * p ≤ T := by
      have harith : (d + p) + r * p = d + (r + 1) * p := by ring
      rw [harith]
      exact hT
    have hnext := ih (d + p) i p n T hT'
    rw [List.replicate_succ, runOps_cons]
    simp only [stepOp]
    rw [hfire]
    simp only [insertEntry]
    rw [hnext]
    refine Prod.ext rfl ?_
    conv_rhs => rw [List.range_succ_eq_map, List.map_cons, List.map_map]
    rw [List.singleton_append]
    refine congrArg₂ _ (by simp) ?_
    refine congrArg (fun fn => List.map fn (List.range (r + 1))) ?_
    funext k
    show Event.fired i (d + p + k * p) = Event.fired i (d + (k + 1) * p)
    refine congrArg _ ?_
    ring

/-- Running k due ticks against a store holding exactly one endless entry
(repeat negative) fires it k times, at deadlines d, d + p, up to
d + (k - 1) * p, leaving the entry pending at d + k * p. -/
theorem single_timer_run_endless (k : Nat) :
    ∀ (d i p n T : Nat), d + k * p ≤ T →
      runOps ⟨[(d, ⟨i, (-1 : Int), p⟩)], true, n⟩ (List.replicate k (.tick T)) =
        (⟨[(d + k * p, ⟨i, (-1 : Int), p⟩)], true, n⟩,
          (List.range k).map (fun j => .fired i (d + j * p))) := by
  induction k with
  | zero =>
    intro d i p n T hT
    simp [runOps]
  | succ k ih =>
    intro d i p n T hT
    have hdue : d ≤ T := le_trans (Nat.le_add_right d ((k + 1) * p)) hT
    have hfire := worker_step_fire_repeat ⟨[(d, ⟨i, (-1 : Int), p⟩)], true, n⟩
      d ⟨i, (-1 : Int), p⟩ [] T rfl rfl (by simp) hdue
    have hdec : decRepeat (-1 : Int) = (-1 : Int) := by decide
    rw [hdec] at hfire
    have hT' : (d + p) + k * p ≤ T := by
      have harith : (d + p) + k * p = d + (k + 1) * p := by ring
      rw [harith]
      exact hT
    have hnext := ih (d + p) i p n T hT'
    rw [List.replicate_succ, runOps_cons]
    simp only [stepOp]
    rw [hfire]
    simp only [insertEntry]
    rw [hnext]
    refine Prod.ext ?_ ?_
    · refine congrArg (fun t => (⟨[(t, ⟨i, (-1 : Int), p⟩)], true, n⟩ : TimerService)) ?_
      ring
    · conv_rhs => rw [List.range_succ_eq_map, List.map_cons, List.map_map]
      rw [List.singleton_append]
      refine congrArg₂ _ (by simp) ?_
      refine congrArg (fun fn => List.map fn (List.range k)) ?_
      funext j
      show Event.fired i (d + p + j * p) = Event.fired i (d + (j + 1) * p)
      refine congrArg _ ?_
      ring

/-- cancel never changes the next_id_ counter. -/
theorem cancel_next_id (s : TimerService) (i : Nat) :
    (s.cancel i).1.next_id_ = s.next_id_ := by
  unfold TimerService.cancel
  split <;> rfl

/-- cancel leaves a sublist of the store. -/
theorem cancel_timers_sublist (s : TimerService) (i : Nat) :
    (s.cancel i).1.timers_.Sublist s.timers_ := by
  unfold TimerService.cancel
  cases hrem : removeById i s.timers_ with
  | none => exact List.Sublist.refl _
  | some l' => exact removeById_sublist i _ _ hrem

/-- Decrementing a positive repeat count, through the Int cast. -/
theorem decRepeat_coe_succ (r : Nat) :
    decRepeat ((r + 1 : Nat) : Int) = (r : Int) := by
  unfold decRepeat
  rw [if_pos]
  · push_cast
    ring
  · exact_mod_cast Nat.succ_pos r

/-- Ids at or above the final id counter never fire during a run: every
fired id was in the store, hence below the counter. -/
theorem fired_lt_next (ops : List Op) : ∀ (s : TimerService) (i : Nat),
    Inv s → (runOps s ops).1.next_id_ ≤ i →
    firedCount (runOps s ops).2 i = 0 := by
  induction ops with
  | nil => intro s i _ _; rfl
  | cons op ops ih =>
    intro s i hInv hge
    have hnext : (runOps (stepOp s op).1 ops).1.next_id_ ≤ i := hge
    have hrest := ih (stepOp s op).1 i (Inv_stepOp s op hInv) hnext
    have hstep : firedCount (stepOp s op).2 i = 0 := by
      cases op with
      | schedule now delay rp => rfl
      | cancel c => rfl
      | shutdown => rfl
      | tick now =>
        rcases tick_cases s now with h | ⟨deadline, data, rest, hrun, htm, hdue, h⟩
        · rw [h]
          rfl
        · rw [h]
          have hid : data.id < s.next_id_ :=
            hInv.1 (deadline, data) (htm ▸ List.mem_cons_self _ _)
          have h1 : s.next_id_ ≤ (stepOp s (Op.tick now)).1.next_id_ :=
            next_id_stepOp s _
          have h2 : (stepOp s (Op.tick now)).1.next_id_ ≤
              (runOps (stepOp s (Op.tick now)).1 ops).1.next_id_ :=
            next_id_runOps ops _
          have hne : data.id ≠ i := by omega
          simp [firedCount, isFired, hne]
    show firedCount ((stepOp s op).2 ++ (runOps (stepOp s op).1 ops).2) i = 0
    rw [firedCount_append, hstep, hrest]

/-- The firing budget: if every pending entry with id i carries repeat
count r (as a nonnegative number), and i is already allocated, then the
rest of the run fires i at most r + 1 more times. -/
theorem fire_budget (ops : List Op) : ∀ (s : TimerService) (i r : Nat),
    Inv s → i < s.next_id_ →
    (∀ e ∈ s.timers_, e.2.id = i → e.2.rep = (r : Int)) →
    firedCount (runOps s ops).2 i ≤ r + 1 := by
  induction ops with
  | nil => intro s i r _ _ _; exact Nat.zero_le _
  | cons op ops ih =>
    intro s i r hInv hlt hrep
    have hInv' := Inv_stepOp s op hInv
    show firedCount ((stepOp s op).2 ++ (runOps (stepOp s op).1 ops).2) i ≤ r + 1
    rw [firedCount_append]
    cases op with
    | schedule now delay rp =>
      have hrep' : ∀ e ∈ (stepOp s (Op.schedule now delay rp)).1.timers_,
          e.2.id = i → e.2.rep = (r : Int) := by
        intro e he hid
        rcases (insertEntry_mem _ _ e).mp he with rfl | he
        · exact absurd (hid ▸ hlt) (lt_irrefl _)
        · exact hrep e he hid
      have hrest := ih _ i r hInv' (Nat.lt_succ_of_lt hlt) hrep'
      have hstep : firedCount (stepOp s (Op.schedule now delay rp)).2 i = 0 := rfl
      omega
    | cancel c =>
      have hrep' : ∀ e ∈ (stepOp s (Op.cancel c)).1.timers_,
          e.2.id = i → e.2.rep = (r : Int) := by
        intro e he hid
        exact hrep e ((cancel_timers_sublist s c).subset he) hid
      have hlt' : i < (stepOp s (Op.cancel c)).1.next_id_ := by
        show i < (s.cancel c).1.next_id_
        rw [cancel_next_id]
        exact hlt
      have hrest := ih _ i r hInv' hlt' hrep'
      have hstep : firedCount (stepOp s (Op.cancel c)).2 i = 0 := rfl
      omega
    | shutdown =>
      have hrest := ih _ i r hInv' hlt hrep
      have hstep : firedCount (stepOp s Op.shutdown).2 i = 0 := rfl
      omega
    | tick now =>
      rcases tick_cases s now with h | ⟨deadline, data, rest, hrun, htm, hdue, h⟩
      · rw [h]
        have hrest := ih s i r hInv hlt hrep
        simpa [firedCount] using hrest
      · have hheadmem : (deadline, data) ∈ s.timers_ := htm ▸ List.mem_cons_self _ _
        have hnotin : ∀ a ∈ rest, a.2.id ≠ data.id := by
          have hn := hInv.2.1
          unfold idsNodup at hn
          rw [htm] at hn
          intro a ha hc
          exact (List.nodup_cons.mp hn).1 (List.mem_map.mpr ⟨a, ha, hc⟩)
        have hSt : (stepOp s (Op.tick now)).1 =
            ⟨if data.rep ≠ 0 then
                insertEntry (deadline + data.period,
                  ⟨data.id, decRepeat data.rep, data.period⟩) rest
              else rest, s.running_, s.next_id_⟩ := by rw [h]
        have hEv : (stepOp s (Op.tick now)).2 = [Event.fired data.id deadline] := by
          rw [h]
        have hInvStep : Inv (stepOp s (Op.tick now)).1 := hInv'
        rw [hSt] at hInvStep
        rw [hSt, hEv]
        by_cases hdi : data.id = i
        · have hrepr : data.rep = (r : Int) := hrep (deadline, data) hheadmem hdi
          have hstep : firedCount [Event.fired data.id deadline] i = 1 := by
            simp [firedCount, isFired, hdi]
          cases r with
          | zero =>
            have hifz : (if data.rep ≠ 0 then
                insertEntry (deadline + data.period,
                  ⟨data.id, decRepeat data.rep, data.period⟩) rest
              else rest) = rest := by
              rw [hrepr]
              simp
            rw [hifz] at hInvStep ⊢
            have habs : ¬ memId i rest := by
              rintro ⟨a, ha, hid⟩
              exact hnotin a ha (hid.trans hdi.symm)
            have habsrun := absent_run ops ⟨rest, s.running_, s.next_id_⟩ i hlt habs
            rw [hstep, habsrun.2.2]
          | succ r' =>
            have hifs : (if data.rep ≠ 0 then
                insertEntry (deadline + data.period,
                  ⟨data.id, decRepeat data.rep, data.period⟩) rest
              else rest) =
                insertEntry (deadline + data.period,
                  ⟨data.id, (r' : Int), data.period⟩) rest := by
              rw [hrepr, decRepeat_coe_succ]
              rw [if_pos]
              exact_mod_cast Nat.succ_ne_zero r'
            rw [hifs] at hInvStep ⊢
            have hrep' : ∀ e ∈ (insertEntry (deadline + data.period,
                ⟨data.id, (r' : Int), data.period⟩) rest),
                e.2.id = i → e.2.rep = (r' : Int) := by
              intro e he hid
              rcases (insertEntry_mem _ _ e).mp he with rfl | he
              · rfl
              · exact absurd (hid.trans hdi.symm) (hnotin e he)
            have hrest := ih ⟨insertEntry (deadline + data.period,
                ⟨data.id, (r' : Int), data.period⟩) rest, s.running_, s.next_id_⟩
              i r' hInvStep hlt hrep'
            rw [hstep]
            omega
        · have hstep : firedCount [Event.fired data.id deadline] i = 0 := by
            simp [firedCount, isFired, hdi]
          have hrep' : ∀ e ∈ (if data.rep ≠ 0 then
              insertEntry (deadline + data.period,
                ⟨data.id, decRepeat data.rep, data.period⟩) rest
            else rest), e.2.id = i → e.2.rep = (r : Int) := by
            intro e he hid
            have hin : e ∈ rest := by
              by_cases hcond : data.rep ≠ 0
              · rw [if_pos hcond] at he
                rcases (insertEntry_mem _ _ e).mp he with rfl | he
                · exact absurd hid hdi
                · exact he
              · rw [if_neg hcond] at he
                exact he
            exact hrep e (htm ▸ List.mem_cons_of_mem _ hin) hid
          have hrest := ih ⟨if data.rep ≠ 0 then
              insertEntry (deadline + data.period,
                ⟨data.id, decRepeat data.rep, data.period⟩) rest
            else rest, s.running_, s.next_id_⟩ i r hInvStep hlt hrep'
          rw [hstep]
          omega

/-- Counting fired events over a list made only of firings of timer i. -/
theorem firedCount_map_fired (i : Nat) (g : Nat → Nat) (L : List Nat) :
    firedCount (L.map (fun k => Event.fired i (g k))) i = L.length := by
  induction L with
  | nil => rfl
  | cons a L ih =>
    simp only [List.map_cons, firedCount, List.filter] at ih ⊢
    rw [show isFired i (Event.fired i (g a)) = true by simp [isFired]]
    simp only [List.length_cons]
    rw [ih]

/-- Claim C1: a timer scheduled with repeat N greater than 0 fires exactly
N + 1 times in total and never again afterwards.  First part: in any run,
the id handed to that schedule call fires at most N + 1 times.  Second
part: on the run that schedules the timer and gives the worker N + 1 due
ticks, the timer fires exactly N + 1 times, and no continuation of that
run ever fires it again. -/
theorem c1_repeat_fires_n_plus_one :
    (∀ (pre post : List Op) (now delay N : Nat), 0 < N →
      firedCount
        (runOps TimerService.init (pre ++ Op.schedule now delay (N : Int) :: post)).2
        (runOps TimerService.init pre).1.next_id_ ≤ N + 1) ∧
    (∀ (N : Nat) (extra : List Op), 0 < N →
      firedCount
        (runOps TimerService.init
          (Op.schedule 0 1 (N : Int) ::
            (List.replicate (N + 1) (Op.tick (N + 1)) ++ extra))).2 1 = N + 1) := by
  constructor
  · intro pre post now delay N hN
    have hInv1 : Inv (runOps TimerService.init pre).1 := Inv_runOps pre _ Inv_init
    rw [runOps_append_snd, firedCount_append]
    have hpre : firedCount (runOps TimerService.init pre).2
        (runOps TimerService.init pre).1.next_id_ = 0 :=
      fired_lt_next pre TimerService.init _ Inv_init (le_refl _)
    rw [hpre]
    set s1 := (runOps TimerService.init pre).1 with hs1
    show 0 + firedCount ((stepOp s1 (Op.schedule now delay (N : Int))).2 ++
      (runOps (stepOp s1 (Op.schedule now delay (N : Int))).1 post).2) s1.next_id_ ≤ N + 1
    rw [firedCount_append]
    have hstep : firedCount (stepOp s1 (Op.schedule now delay (N : Int))).2
        s1.next_id_ = 0 := rfl
    rw [hstep]
    have hrep : ∀ e ∈ (stepOp s1 (Op.schedule now delay (N : Int))).1.timers_,
        e.2.id = s1.next_id_ → e.2.rep = (N : Int) := by
      intro e he hid
      rcases (insertEntry_mem _ _ e).mp he with rfl | he
      · rfl
      · exact absurd (hid ▸ hInv1.1 e he) (lt_irrefl _)
    have hbudget := fire_budget post (stepOp s1 (Op.schedule now delay (N : Int))).1
      s1.next_id_ N (Inv_stepOp s1 _ hInv1) (Nat.lt_succ_self _) hrep
    omega
  · intro N extra hN
    have hsched : stepOp TimerService.init (Op.schedule 0 1 (N : Int)) =
        (⟨[(1, ⟨1, (N : Int), 1⟩)], true, 2⟩, [Event.scheduled 1 1]) := rfl
    have hT : 1 + N * 1 ≤ N + 1 := by simp [Nat.mul_one, Nat.add_comm]
    have hrun := single_timer_run N 1 1 1 2 (N + 1) hT
    conv_lhs => rw [runOps_cons]
    simp only [hsched]
    rw [runOps_append_snd, firedCount_append, firedCount_append, hrun]
    have habs := absent_run extra ⟨[], true, 2⟩ 1 (by decide) (by simp [memId])
    have hticks := firedCount_map_fired 1 (fun k => 1 + k * 1) (List.range (N + 1))
    show firedCount [Event.scheduled 1 1] 1 +
      (firedCount ((List.range (N + 1)).map (fun k => Event.fired 1 (1 + k * 1))) 1 +
        firedCount (runOps ⟨[], true, 2⟩ extra).2 1) = N + 1
    have h0 : firedCount [Event.scheduled 1 1] 1 = 0 := rfl
    rw [h0, hticks, habs.2.2, List.length_range]
    omega

/-- Witness for C1: a timer with repeat 2 fires at most 3 times in any run,
and exactly 3 times on the canonical run, with a further tick firing
nothing. -/
theorem c1_witness :
    firedCount
      (runOps TimerService.init ([] ++ Op.schedule 0 5 (2 : Int) :: [])).2
      (runOps TimerService.init []).1.next_id_ ≤ 3 ∧
    firedCount
      (runOps TimerService.init
        (Op.schedule 0 1 (2 : Int) ::
          (List.replicate 3 (Op.tick 3) ++ [Op.tick 50]))).2 1 = 3 :=
  ⟨c1_repeat_fires_n_plus_one.1 [] [] 0 5 2 (by decide),
    c1_repeat_fires_n_plus_one.2 2 [Op.tick 50] (by decide)⟩

/-- Claim C10: the period stored for a timer is the delay argument of
schedule (there is no separate period parameter), so the k-th firing of a
repeating timer is due at the schedule-time clock reading plus k + 1 times
the delay.  First part: schedule stores period = delay.  Second and third
parts: for a timer scheduled at time t0 with delay d and repeat N greater
than or equal to 0 (resp. endless repeat -1), the k-th firing, counted from
0, happens at deadline t0 + d + k * d = t0 + (k + 1) * d. -/
theorem c10_period_equals_delay :
    (∀ (s : TimerService) (now delay : Nat) (rep : Int),
      (s.schedule now delay rep).1.timers_ =
        insertEntry (now + delay, ⟨s.next_id_, rep, delay⟩) s.timers_) ∧
    (∀ (t0 d N T : Nat), t0 + d + N * d ≤ T →
      (runOps TimerService.init
        (Op.schedule t0 d (N : Int) :: List.replicate (N + 1) (Op.tick T))).2 =
        Event.scheduled 1 (t0 + d) ::
          (List.range (N + 1)).map (fun k => Event.fired 1 (t0 + d + k * d))) ∧
    (∀ (t0 d k T : Nat), t0 + d + k * d ≤ T →
      (runOps TimerService.init
        (Op.schedule t0 d (-1 : Int) :: List.replicate k (Op.tick T))).2 =
        Event.scheduled 1 (t0 + d) ::
          (List.range k).map (fun j => Event.fired 1 (t0 + d + j * d))) := by
  refine ⟨fun s now delay rep => rfl, ?_, ?_⟩
  · intro t0 d N T hT
    have hsched : stepOp TimerService.init (Op.schedule t0 d (N : Int)) =
        (⟨[(t0 + d, ⟨1, (N : Int), d⟩)], true, 2⟩, [Event.scheduled 1 (t0 + d)]) := rfl
    have hrun := single_timer_run N (t0 + d) 1 d 2 T hT
    conv_lhs => rw [runOps_cons]
    simp only [hsched, hrun]
    rw [List.singleton_append]
  · intro t0 d k T hT
    have hsched : stepOp TimerService.init (Op.schedule t0 d (-1 : Int)) =
        (⟨[(t0 + d, ⟨1, (-1 : Int), d⟩)], true, 2⟩, [Event.scheduled 1 (t0 + d)]) := rfl
    have hrun := single_timer_run_endless k (t0 + d) 1 d 2 T hT
    conv_lhs => rw [runOps_cons]
    simp only [hsched, hrun]
    rw [List.singleton_append]

/-- Witness for C10 at concrete repeating and endless timers. -/
theorem c10_witness :
    ((⟨[], true, 7⟩ : TimerService).schedule 3 2 (5 : Int)).1.timers_ =
      insertEntry (3 + 2, ⟨7, (5 : Int), 2⟩) [] ∧
    (runOps TimerService.init
      (Op.schedule 3 2 ((1 : Nat) : Int) :: List.replicate 2 (Op.tick 10))).2 =
      Event.scheduled 1 (3 + 2) ::
        (List.range 2).map (fun k => Event.fired 1 (3 + 2 + k * 2)) ∧
    (runOps TimerService.init
      (Op.schedule 3 2 (-1 : Int) :: List.replicate 2 (Op.tick 10))).2 =
      Event.scheduled 1 (3 + 2) ::
        (List.range 2).map (fun j => Event.fired 1 (3 + 2 + j * 2)) :=
  ⟨c10_period_equals_delay.1 ⟨[], true, 7⟩ 3 2 (5 : Int),
    c10_period_equals_delay.2.1 3 2 1 10 (by decide),
    c10_period_equals_delay.2.2 3 2 2 10 (by decide)⟩

/-- Claim C2: a worker firing an entry with repeat different from 0 reinserts
it with new deadline equal to the old deadline plus the entry period, not the
current time plus the period: the resulting state is independent of the
clock reading, so cadence is drift-free under zero processing delay. -/
theorem c2_reinsert_old_deadline_plus_period (s : TimerService) (deadline : Nat)
    (data : TimerData) (rest : List Entry) (now now' : Nat)
    (hrun : s.running_ = true) (htm : s.timers_ = (deadline, data) :: rest)
    (hrep : data.rep ≠ 0) (hdue : deadline ≤ now) (hdue' : deadline ≤ now') :
    (s.worker_step now).2 = some (data.id, deadline) ∧
    (s.worker_step now).1.timers_ =
      insertEntry (deadline + data.period,
        ⟨data.id, decRepeat data.rep, data.period⟩) rest ∧
    s.worker_step now = s.worker_step now' := by
  rw [worker_step_fire_repeat s deadline data rest now hrun htm hrep hdue,
    worker_step_fire_repeat s deadline data rest now' hrun htm hrep hdue']
  exact ⟨rfl, rfl, rfl⟩

/-- Witness for C2 at a concrete repeating timer. -/
theorem c2_witness :
    ((⟨[(5, ⟨1, 3, 7⟩)], true, 2⟩ : TimerService).worker_step 9).2 = some (1, 5) ∧
    ((⟨[(5, ⟨1, 3, 7⟩)], true, 2⟩ : TimerService).worker_step 9).1.timers_ =
      insertEntry (5 + 7, ⟨1, decRepeat 3, 7⟩) [] ∧
    (⟨[(5, ⟨1, 3, 7⟩)], true, 2⟩ : TimerService).worker_step 9 =
      (⟨[(5, ⟨1, 3, 7⟩)], true, 2⟩ : TimerService).worker_step 100 :=
  c2_reinsert_old_deadline_plus_period _ 5 ⟨1, 3, 7⟩ [] 9 100 rfl rfl
    (by decide) (by decide) (by decide)

/-- Claim C3 fails on the code: when the endless timer with id 1 and deadline
5 fires at time 5, the worker has already reinserted the id-1 entry before
the callback runs, so an entry with the firing id is in the store while the
callback executes. -/
theorem c3_counterexample :
    ((⟨[(5, ⟨1, -1, 5⟩)], true, 2⟩ : TimerService).worker_step 5).2 = some (1, 5) ∧
    memId 1 ((⟨[(5, ⟨1, -1, 5⟩)], true, 2⟩ : TimerService).worker_step 5).1.timers_ := by
  constructor
  · decide
  · decide

/-- Claim C3 amended: in every firing step the worker removes the firing
entry from the store before the callback runs; for a one-shot entry no entry
with its id remains in the store while the callback executes, but an entry
with repeat different from 0 is reinserted before the callback executes, so
an entry with the same id is present in the store during the callback. -/
theorem c3_removed_before_execution (s : TimerService) (deadline : Nat)
    (data : TimerData) (rest : List Entry) (now : Nat)
    (hrun : s.running_ = true) (htm : s.timers_ = (deadline, data) :: rest)
    (hdue : deadline ≤ now) (hnodup : idsNodup s) :
    (s.worker_step now).2 = some (data.id, deadline) ∧
    (data.rep = 0 → ¬ memId data.id (s.worker_step now).1.timers_) ∧
    (data.rep ≠ 0 → memId data.id (s.worker_step now).1.timers_) := by
  rcases eq_or_ne data.rep 0 with hrep | hrep
  · rw [worker_step_fire_once s deadline data rest now hrun htm hrep hdue]
    refine ⟨rfl, fun _ => ?_, fun h => absurd hrep h⟩
    unfold idsNodup at hnodup
    rw [htm] at hnodup
    rintro ⟨a, ha, hid⟩
    exact (List.nodup_cons.mp hnodup).1
      (List.mem_map.mpr ⟨a, ha, hid⟩)
  · rw [worker_step_fire_repeat s deadline data rest now hrun htm hrep hdue]
    refine ⟨rfl, fun h => absurd h hrep, fun _ => ?_⟩
    exact (memId_insertEntry _ _ _).mpr (Or.inl rfl)

/-- Witness for the amended C3 at a concrete one-shot timer. -/
theorem c3_witness :
    ((⟨[(5, ⟨1, 0, 5⟩)], true, 2⟩ : TimerService).worker_step 5).2 = some (1, 5) ∧
    ((0 : Int) = 0 →
      ¬ memId 1 ((⟨[(5, ⟨1, 0, 5⟩)], true, 2⟩ : TimerService).worker_step 5).1.timers_) ∧
    ((0 : Int) ≠ 0 →
      memId 1 ((⟨[(5, ⟨1, 0, 5⟩)], true, 2⟩ : TimerService).worker_step 5).1.timers_) :=
  c3_removed_before_execution _ 5 ⟨1, 0, 5⟩ [] 5 rfl rfl (by decide) (by decide)

/-- Claim C7 fails on the code: schedule does not consult running_, so a
schedule call after shutdown has begun still inserts an entry into the
store. -/
theorem c7_counterexample :
    (TimerService.init.shutdown).running_ = false ∧
    ((TimerService.init.shutdown).schedule 0 5 0).1.timers_ = [(5, ⟨1, 0, 5⟩)] := by
  constructor
  · rfl
  · rfl

/-- Claim C7 amended: a schedule call made after shutdown has begun is not
rejected: it inserts an entry into the store and returns a fresh id exactly
as before shutdown; the service is silently accepting the work, but the
entry never fires, because the worker fires nothing once running_ is
false. -/
theorem c7_schedule_after_shutdown_inserts (s : TimerService)
    (now delay : Nat) (rep : Int) (ops : List Op)
    (h : s.running_ = false) :
    (s.schedule now delay rep).2 = s.next_id_ ∧
    memId s.next_id_ (s.schedule now delay rep).1.timers_ ∧
    firedEventsOf (runOps (s.schedule now delay rep).1 ops).2 = [] := by
  refine ⟨rfl, (memId_insertEntry _ _ _).mpr (Or.inl rfl), ?_⟩
  exact (stopped_run ops (s.schedule now delay rep).1 h).2

/-- Witness for the amended C7 at a concrete post-shutdown schedule. -/
theorem c7_witness :
    ((TimerService.init.shutdown).schedule 0 5 0).2 = TimerService.init.shutdown.next_id_ ∧
    memId TimerService.init.shutdown.next_id_
      ((TimerService.init.shutdown).schedule 0 5 0).1.timers_ ∧
    firedEventsOf
      (runOps ((TimerService.init.shutdown).schedule 0 5 0).1 [.tick 100, .tick 200]).2 = [] :=
  c7_schedule_after_shutdown_inserts _ 0 5 0 [.tick 100, .tick 200] rfl

/-- Claim C8 fails on the code in its cancel part: pending entries are not
purged at shutdown and cancel does not consult running_, so cancelling a
still-pending id after shutdown returns true, not false. -/
theorem c8_counterexample :
    ((⟨[(5, ⟨1, 0, 5⟩)], true, 2⟩ : TimerService).shutdown.cancel 1).2 = true := by
  decide

/-- Claim C8 amended: if shutdown occurs while entries are pending, none of
those entries' callbacks execute afterwards: the worker fires nothing once
running_ is false; but a cancel call made after shutdown does not uniformly
return false: it returns true exactly when an entry with the id is still in
the store, since pending entries are not purged at shutdown. -/
theorem c8_shutdown_semantics (s : TimerService) (ops : List Op) (i : Nat)
    (h : s.running_ = false) :
    firedEventsOf (runOps s ops).2 = [] ∧
    ((s.cancel i).2 = true ↔ memId i s.timers_) :=
  ⟨(stopped_run ops s h).2, cancel_true_iff s i⟩

/-- Removing an id from a store with pairwise distinct ids removes every
occurrence of it. -/
theorem removeById_not_memId (i : Nat) : ∀ (l l' : List Entry),
    (l.map (fun a => a.2.id)).Nodup → removeById i l = some l' → ¬ memId i l' := by
  intro l
  induction l with
  | nil => intro l' _ h; simp [removeById] at h
  | cons x xs ih =>
    intro l' hn h
    simp only [removeById] at h
    split at h
    · rename_i hx
      cases h
      rintro ⟨a, ha, hid⟩
      rw [List.map_cons] at hn
      exact (List.nodup_cons.mp hn).1
        (List.mem_map.mpr ⟨a, ha, hid.trans hx.symm⟩)
    · rename_i hx
      rcases Option.map_eq_some'.mp h with ⟨ys, hys, rfl⟩
      rintro ⟨a, ha, hid⟩
      rcases List.mem_cons.mp ha with rfl | ha
      · exact hx hid
      · rw [List.map_cons] at hn
        exact ih ys (List.nodup_cons.mp hn).2 hys ⟨a, ha, hid⟩

/-- A cancelled-true event for i appears in one stimulus only for a cancel
call on i that succeeded. -/
theorem trueCancelCount_step_zero (s : TimerService) (op : Op) (i : Nat)
    (h : op = Op.cancel i → (s.cancel i).2 = false) :
    trueCancelCount (stepOp s op).2 i = 0 := by
  cases op with
  | schedule now delay rp => rfl
  | shutdown => rfl
  | tick now =>
    rcases tick_cases s now with ht | ⟨deadline, data, rest, hrun, htm, hdue, ht⟩
    · rw [ht]; rfl
    · rw [ht]; rfl
  | cancel c =>
    by_cases hc : c = i
    · subst hc
      have hfalse := h rfl
      show trueCancelCount [Event.cancelled c (s.cancel c).2] c = 0
      rw [hfalse]
      simp [trueCancelCount]
    · show trueCancelCount [Event.cancelled c (s.cancel c).2] i = 0
      simp [trueCancelCount, hc]

/-- An id that is absent from the store and below the id counter is never
successfully cancelled during the rest of the run. -/
theorem absent_no_true_cancel (ops : List Op) : ∀ (s : TimerService) (i : Nat),
    i < s.next_id_ → ¬ memId i s.timers_ →
    trueCancelCount (runOps s ops).2 i = 0 := by
  induction ops with
  | nil => intro s i _ _; rfl
  | cons op ops ih =>
    intro s i hlt hm
    obtain ⟨h1, h2, _⟩ := absent_step s op i hlt hm
    have hstep : trueCancelCount (stepOp s op).2 i = 0 := by
      refine trueCancelCount_step_zero s op i ?_
      intro hop
      subst hop
      have : (s.cancel i).2 ≠ true := fun hc => hm ((cancel_true_iff s i).mp hc)
      exact Bool.eq_false_iff.mpr this
    show trueCancelCount ((stepOp s op).2 ++ (runOps (stepOp s op).1 ops).2) i = 0
    rw [trueCancelCount_append, hstep, ih _ i h2 h1]

/-- While an entry with id i is pending, cancel can succeed on i at most
once in the rest of the run: the first success removes it for good. -/
theorem live_cancel_once (ops : List Op) : ∀ (s : TimerService) (i : Nat),
    Inv s → memId i s.timers_ →
    trueCancelCount (runOps s ops).2 i ≤ 1 := by
  induction ops with
  | nil => intro s i _ _; exact Nat.zero_le _
  | cons op ops ih =>
    intro s i hInv hmem
    have hInv' := Inv_stepOp s op hInv
    have hlt : i < s.next_id_ := by
      rcases hmem with ⟨e, he, hid⟩
      exact hid ▸ hInv.1 e he
    show trueCancelCount ((stepOp s op).2 ++ (runOps (stepOp s op).1 ops).2) i ≤ 1
    rw [trueCancelCount_append]
    cases op with
    | schedule now delay rp =>
      have hstep : trueCancelCount (stepOp s (Op.schedule now delay rp)).2 i = 0 := rfl
      have hmem' : memId i (stepOp s (Op.schedule now delay rp)).1.timers_ :=
        (memId_insertEntry _ _ _).mpr (Or.inr hmem)
      have hrest := ih _ i hInv' hmem'
      omega
    | cancel c =>
      by_cases hc : c = i
      · subst hc
        have htrue : (s.cancel c).2 = true := (cancel_true_iff s c).mpr hmem
        have hstep : trueCancelCount (stepOp s (Op.cancel c)).2 c = 1 := by
          show trueCancelCount [Event.cancelled c (s.cancel c).2] c = 1
          rw [htrue]
          simp [trueCancelCount]
        have hrem : removeById c s.timers_ = some (s.cancel c).1.timers_ := by
          unfold TimerService.cancel
          cases hr : removeById c s.timers_ with
          | none => exact absurd hmem ((removeById_eq_none c s.timers_).mp hr)
          | some l' => rfl
        have habs : ¬ memId c (s.cancel c).1.timers_ :=
          removeById_not_memId c s.timers_ _ hInv.2.1 hrem
        have hlt' : c < (stepOp s (Op.cancel c)).1.next_id_ := by
          show c < (s.cancel c).1.next_id_
          rw [cancel_next_id]
          exact hlt
        have hrest := absent_no_true_cancel ops (stepOp s (Op.cancel c)).1 c hlt' habs
        omega
      · have hstep : trueCancelCount (stepOp s (Op.cancel c)).2 i = 0 := by
          show trueCancelCount [Event.cancelled c (s.cancel c).2] i = 0
          simp [trueCancelCount, hc]
        have hmem' : memId i (stepOp s (Op.cancel c)).1.timers_ := by
          show memId i (s.cancel c).1.timers_
          unfold TimerService.cancel
          cases hr : removeById c s.timers_ with
          | none => exact hmem
          | some l' => exact (removeById_memId c i (fun h => hc h.symm) _ l' hr).mpr hmem
        have hrest := ih _ i hInv' hmem'
        omega
    | shutdown =>
      have hstep : trueCancelCount (stepOp s Op.shutdown).2 i = 0 := rfl
      have hrest := ih _ i hInv' hmem
      omega
    | tick now =>
      rcases tick_cases s now with ht | ⟨deadline, data, rest, hrun, htm, hdue, ht⟩
      · rw [ht]
        have hrest := ih s i hInv hmem
        simpa [trueCancelCount] using hrest
      · have hSt : (stepOp s (Op.tick now)).1 =
            ⟨if data.rep ≠ 0 then
                insertEntry (deadline + data.period,
                  ⟨data.id, decRepeat data.rep, data.period⟩) rest
              else rest, s.running_, s.next_id_⟩ := by rw [ht]
        have hEv : (stepOp s (Op.tick now)).2 = [Event.fired data.id deadline] := by
          rw [ht]
        have hstep : trueCancelCount (stepOp s (Op.tick now)).2 i = 0 := by
          rw [hEv]
          rfl
        have hInvStep : Inv (stepOp s (Op.tick now)).1 := hInv'
        have hnotin : ∀ a ∈ rest, a.2.id ≠ data.id := by
          have hn := hInv.2.1
          unfold idsNodup at hn
          rw [htm] at hn
          intro a ha hc
          exact (List.nodup_cons.mp hn).1 (List.mem_map.mpr ⟨a, ha, hc⟩)
        by_cases hdi : data.id = i
        · by_cases hrepc : data.rep = 0
          · have hifz : (stepOp s (Op.tick now)).1 =
                ⟨rest, s.running_, s.next_id_⟩ := by
              rw [hSt, if_neg (by simpa using hrepc)]
            have habs : ¬ memId i rest := by
              rintro ⟨a, ha, hid⟩
              exact hnotin a ha (hid.trans hdi.symm)
            have hrest := absent_no_true_cancel ops (stepOp s (Op.tick now)).1 i
              (by rw [hifz]; exact hlt) (by rw [hifz]; exact habs)
            omega
          · have hmem' : memId i (stepOp s (Op.tick now)).1.timers_ := by
              rw [hSt, if_pos hrepc]
              exact (memId_insertEntry _ _ _).mpr (Or.inl hdi)
            have hrest := ih _ i hInv' hmem'
            omega
        · have hmemrest : memId i rest := by
            rcases hmem with ⟨e, he, hid⟩
            rw [htm] at he
            rcases List.mem_cons.mp he with rfl | he
            · exact absurd hid hdi
            · exact ⟨e, he, hid⟩
          have hmem' : memId i (stepOp s (Op.tick now)).1.timers_ := by
            rw [hSt]
            split
            · exact (memId_insertEntry _ _ _).mpr (Or.inr hmemrest)
            · exact hmemrest
          have hrest := ih _ i hInv' hmem'
          omega

/-- An id not yet allocated is successfully cancelled at most once in any
run: it must first be allocated by schedule, and after the one success it
is gone for good. -/
theorem fresh_cancel_once (ops : List Op) : ∀ (s : TimerService) (i : Nat),
    Inv s → s.next_id_ ≤ i → ¬ memId i s.timers_ →
    trueCancelCount (runOps s ops).2 i ≤ 1 := by
  induction ops with
  | nil => intro s i _ _ _; exact Nat.zero_le _
  | cons op ops ih =>
    intro s i hInv hge hm
    have hInv' := Inv_stepOp s op hInv
    show trueCancelCount ((stepOp s op).2 ++ (runOps (stepOp s op).1 ops).2) i ≤ 1
    rw [trueCancelCount_append]
    cases op with
    | schedule now delay rp =>
      have hstep : trueCancelCount (stepOp s (Op.schedule now delay rp)).2 i = 0 := rfl
      by_cases hni : s.next_id_ = i
      · have hmem' : memId i (stepOp s (Op.schedule now delay rp)).1.timers_ :=
          (memId_insertEntry _ _ _).mpr (Or.inl hni)
        have hrest := live_cancel_once ops _ i hInv' hmem'
        omega
      · have hge' : (stepOp s (Op.schedule now delay rp)).1.next_id_ ≤ i := by
          show s.next_id_ + 1 ≤ i
          omega
        have hm' : ¬ memId i (stepOp s (Op.schedule now delay rp)).1.timers_ := by
          intro hmem
          rcases (memId_insertEntry _ _ _).mp hmem with hc | hc
          · exact hni hc
          · exact hm hc
        have hrest := ih _ i hInv' hge' hm'
        omega
    | cancel c =>
      have hstep : trueCancelCount (stepOp s (Op.cancel c)).2 i = 0 := by
        refine trueCancelCount_step_zero s (Op.cancel c) i ?_
        intro hop
        have hci : c = i := by cases hop; rfl
        subst hci
        have : (s.cancel c).2 ≠ true := fun hc => hm ((cancel_true_iff s c).mp hc)
        exact Bool.eq_false_iff.mpr this
      have hge' : (stepOp s (Op.cancel c)).1.next_id_ ≤ i := by
        show (s.cancel c).1.next_id_ ≤ i
        rw [cancel_next_id]
        exact hge
      have hm' : ¬ memId i (stepOp s (Op.cancel c)).1.timers_ := by
        rintro ⟨a, ha, hid⟩
        exact hm ⟨a, (cancel_timers_sublist s c).subset ha, hid⟩
      have hrest := ih _ i hInv' hge' hm'
      omega
    | shutdown =>
      have hstep : trueCancelCount (stepOp s Op.shutdown).2 i = 0 := rfl
      have hrest := ih _ i hInv' hge hm
      omega
    | tick now =>
      rcases tick_cases s now with ht | ⟨deadline, data, rest, hrun, htm, hdue, ht⟩
      · rw [ht]
        have hrest := ih s i hInv hge hm
        simpa [trueCancelCount] using hrest
      · have hSt : (stepOp s (Op.tick now)).1 =
            ⟨if data.rep ≠ 0 then
                insertEntry (deadline + data.period,
                  ⟨data.id, decRepeat data.rep, data.period⟩) rest
              else rest, s.running_, s.next_id_⟩ := by rw [ht]
        have hEv : (stepOp s (Op.tick now)).2 = [Event.fired data.id deadline] := by
          rw [ht]
        have hstep : trueCancelCount (stepOp s (Op.tick now)).2 i = 0 := by
          rw [hEv]
          rfl
        have hdi : data.id ≠ i := by
          intro hc
          exact hm ⟨(deadline, data), htm ▸ List.mem_cons_self _ _, hc⟩
        have hrest' : ¬ memId i rest := by
          rintro ⟨a, ha, hid⟩
          exact hm ⟨a, htm ▸ List.mem_cons_of_mem _ ha, hid⟩
        have hm' : ¬ memId i (stepOp s (Op.tick now)).1.timers_ := by
          rw [hSt]
          split
          · intro hmem
            rcases (memId_insertEntry _ _ _).mp hmem with hc | hc
            · exact hdi hc
            · exact hrest' hc
          · exact hrest'
        have hge' : (stepOp s (Op.tick now)).1.next_id_ ≤ i := by
          rw [hSt]
          exact hge
        have hrest := ih _ i hInv' hge' hm'
        omega

/-- Claim C4: cancel returns true iff an entry with the id was still
pending, and then it removes exactly that entry (with distinct ids, the id
is gone afterwards); when it returns false the whole state is unchanged;
and over any run from a fresh service, cancel returns true at most once for
a given id. -/
theorem c4_cancel_iff_pending :
    (∀ (s : TimerService) (i : Nat), (s.cancel i).2 = true ↔ memId i s.timers_) ∧
    (∀ (s : TimerService) (i : Nat), (s.cancel i).2 = true →
      removeById i s.timers_ = some (s.cancel i).1.timers_) ∧
    (∀ (s : TimerService) (i : Nat), idsNodup s → (s.cancel i).2 = true →
      ¬ memId i (s.cancel i).1.timers_) ∧
    (∀ (s : TimerService) (i : Nat), (s.cancel i).2 = false → (s.cancel i).1 = s) ∧
    (∀ (ops : List Op) (i : Nat),
      trueCancelCount (runOps TimerService.init ops).2 i ≤ 1) := by
  have hrem : ∀ (s : TimerService) (i : Nat), (s.cancel i).2 = true →
      removeById i s.timers_ = some (s.cancel i).1.timers_ := by
    intro s i htrue
    have hmem := (cancel_true_iff s i).mp htrue
    unfold TimerService.cancel
    cases hr : removeById i s.timers_ with
    | none => exact absurd hmem ((removeById_eq_none i s.timers_).mp hr)
    | some l' => rfl
  refine ⟨cancel_true_iff, hrem, ?_, cancel_false_unchanged, ?_⟩
  · intro s i hnodup htrue
    exact removeById_not_memId i s.timers_ _ hnodup (hrem s i htrue)
  · intro ops i
    rcases Nat.lt_or_ge i TimerService.init.next_id_ with h | h
    · have := absent_no_true_cancel ops TimerService.init i h (by simp [memId, TimerService.init])
      omega
    · exact fresh_cancel_once ops TimerService.init i Inv_init h
        (by simp [memId, TimerService.init])

/-- Witness for C4 at a concrete store with one pending entry: a first
cancel succeeds and empties the store, a cancel of an unknown id changes
nothing, and in a run that schedules one timer and cancels it twice the
success is reported once. -/
theorem c4_witness :
    (((⟨[(5, ⟨1, 0, 5⟩)], true, 2⟩ : TimerService).cancel 1).2 = true ↔
      memId 1 (⟨(5, ⟨1, 0, 5⟩) :: [], (true : Bool), 2⟩ : TimerService).timers_) ∧
    removeById 1 (⟨(5, ⟨1, 0, 5⟩) :: [], (true : Bool), 2⟩ : TimerService).timers_ =
      some ((⟨[(5, ⟨1, 0, 5⟩)], true, 2⟩ : TimerService).cancel 1).1.timers_ ∧
    ¬ memId 1 ((⟨[(5, ⟨1, 0, 5⟩)], true, 2⟩ : TimerService).cancel 1).1.timers_ ∧
    ((⟨[(5, ⟨1, 0, 5⟩)], true, 2⟩ : TimerService).cancel 9).1 =
      (⟨[(5, ⟨1, 0, 5⟩)], true, 2⟩ : TimerService) ∧
    trueCancelCount
      (runOps TimerService.init [Op.schedule 0 5 0, Op.cancel 1, Op.cancel 1]).2 1 ≤ 1 :=
  ⟨c4_cancel_iff_pending.1 ⟨[(5, ⟨1, 0, 5⟩)], true, 2⟩ 1,
    c4_cancel_iff_pending.2.1 ⟨[(5, ⟨1, 0, 5⟩)], true, 2⟩ 1 (by decide),
    c4_cancel_iff_pending.2.2.1 ⟨[(5, ⟨1, 0, 5⟩)], true, 2⟩ 1 (by decide) (by decide),
    c4_cancel_iff_pending.2.2.2.1 ⟨[(5, ⟨1, 0, 5⟩)], true, 2⟩ 9 (by decide),
    c4_cancel_iff_pending.2.2.2.2 [Op.schedule 0 5 0, Op.cancel 1, Op.cancel 1] 1⟩

/-- Witness for the amended C8 at a concrete stopped state with a pending
entry. -/
theorem c8_witness :
    firedEventsOf
      (runOps (⟨[(5, ⟨1, 0, 5⟩)], false, 2⟩ : TimerService) [.tick 100, .cancel 1]).2 = [] ∧
    (((⟨[(5, ⟨1, 0, 5⟩)], false, 2⟩ : TimerService).cancel 1).2 = true ↔
      memId 1 (⟨(5, ⟨1, 0, 5⟩) :: [], (false : Bool), 2⟩ : TimerService).timers_) :=
  c8_shutdown_semantics _ [.tick 100, .cancel 1] 1 rfl

/-- A worker tick never changes the next_id_ counter. -/
theorem tick_next_id (s : TimerService) (now : Nat) :
    (stepOp s (.tick now)).1.next_id_ = s.next_id_ := by
  rcases tick_cases s now with h | ⟨deadline, data, rest, _, _, _, h⟩ <;> rw [h]

/-- A worker tick emits no scheduled event. -/
theorem tick_no_scheduled (s : TimerService) (now : Nat) :
    scheduledIds (stepOp s (.tick now)).2 = [] := by
  rcases tick_cases s now with h | ⟨deadline, data, rest, _, _, _, h⟩ <;> (rw [h]; rfl)

/-- The id counter advances by exactly the number of schedule calls. -/
theorem run_next_id (ops : List Op) : ∀ (s : TimerService),
    (runOps s ops).1.next_id_ = s.next_id_ + countSchedules ops := by
  induction ops with
  | nil => intro s; rfl
  | cons op ops ih =>
    intro s
    show (runOps (stepOp s op).1 ops).1.next_id_ = _
    rw [ih]
    cases op with
    | schedule now delay rp =>
      show s.next_id_ + 1 + countSchedules ops = s.next_id_ + (countSchedules ops + 1)
      omega
    | cancel c =>
      rw [show (stepOp s (Op.cancel c)).1.next_id_ = s.next_id_ from cancel_next_id s c,
        show countSchedules (Op.cancel c :: ops) = countSchedules ops from rfl]
    | tick now =>
      rw [tick_next_id,
        show countSchedules (Op.tick now :: ops) = countSchedules ops from rfl]
    | shutdown =>
      rw [show (stepOp s Op.shutdown).1.next_id_ = s.next_id_ from rfl,
        show countSchedules (Op.shutdown :: ops) = countSchedules ops from rfl]

/-- The ids handed out by schedule over a run are consecutive, starting at
the state's counter. -/
theorem run_scheduled_ids (ops : List Op) : ∀ (s : TimerService),
    scheduledIds (runOps s ops).2 = List.range' s.next_id_ (countSchedules ops) := by
  induction ops with
  | nil => intro s; rfl
  | cons op ops ih =>
    intro s
    show scheduledIds ((stepOp s op).2 ++ (runOps (stepOp s op).1 ops).2) = _
    rw [scheduledIds_append]
    cases op with
    | schedule now delay rp =>
      have h1 : scheduledIds (stepOp s (Op.schedule now delay rp)).2 = [s.next_id_] := rfl
      rw [h1, ih]
      show s.next_id_ :: List.range' (s.next_id_ + 1) (countSchedules ops) =
        List.range' s.next_id_ (countSchedules ops + 1)
      rw [List.range'_succ]
    | cancel c =>
      have h1 : scheduledIds (stepOp s (Op.cancel c)).2 = [] := rfl
      rw [h1, ih, List.nil_append,
        show (stepOp s (Op.cancel c)).1.next_id_ = s.next_id_ from cancel_next_id s c,
        show countSchedules (Op.cancel c :: ops) = countSchedules ops from rfl]
    | tick now =>
      rw [tick_no_scheduled, ih, tick_next_id, List.nil_append,
        show countSchedules (Op.tick now :: ops) = countSchedules ops from rfl]
    | shutdown =>
      have h1 : scheduledIds (stepOp s Op.shutdown).2 = [] := rfl
      rw [h1, ih, List.nil_append,
        show (stepOp s Op.shutdown).1.next_id_ = s.next_id_ from rfl,
        show countSchedules (Op.shutdown :: ops) = countSchedules ops from rfl]

/-- Claim C9: over any run from a fresh service, the ids returned by the
schedule calls are exactly 1, 2, up to the number of schedule calls, in
call order: assignment starts at 1, is strictly increasing, and never
reuses an id; and the ids of the entries in the store are always pairwise
distinct. -/
theorem c9_ids_monotone_from_one :
    (∀ ops : List Op,
      scheduledIds (runOps TimerService.init ops).2 =
        List.range' 1 (countSchedules ops)) ∧
    (∀ ops : List Op, idsNodup (runOps TimerService.init ops).1) := by
  constructor
  · intro ops
    exact run_scheduled_ids ops TimerService.init
  · intro ops
    exact (Inv_runOps ops TimerService.init Inv_init).2.1

/-- Inversion of a firing worker iteration: the fired entry was the store
head, due at the clock reading, with the service running. -/
theorem worker_step_some_inv (s : TimerService) (now i dl : Nat)
    (h : (s.worker_step now).2 = some (i, dl)) :
    ∃ data rest, s.timers_ = (dl, data) :: rest ∧ data.id = i ∧ dl ≤ now ∧
      s.running_ = true := by
  unfold TimerService.worker_step at h
  split at h
  · cases h
  · rename_i hrun
    have hrun' : s.running_ = true := by
      revert hrun
      cases s.running_ <;> simp
    cases htm : s.timers_ with
    | nil => rw [htm] at h; cases h
    | cons hd rest =>
      obtain ⟨deadline, data⟩ := hd
      rw [htm] at h
      simp only at h
      split at h
      · rename_i hdue
        have h2 : some (data.id, deadline) = some (i, dl) := h
        rw [Option.some.injEq, Prod.mk.injEq] at h2
        exact ⟨data, rest, h2.2 ▸ rfl, h2.1, h2.2 ▸ hdue, hrun'⟩
      · cases h

/-- Along any run with a monotone clock, from a state whose pending
deadlines are all at least d with d at most the clock, the fired deadlines
form a non-decreasing chain bounded below by d. -/
theorem fired_deadlines_mono (ops : List Op) : ∀ (s : TimerService) (d t : Nat),
    Inv s → (∀ e ∈ s.timers_, d ≤ e.1) → d ≤ t → chrono t ops = true →
    chainLB d (firedDeadlines (runOps s ops).2) := by
  induction ops with
  | nil => intro s d t _ _ _ _; trivial
  | cons op ops ih =>
    intro s d t hInv hlb hdt hchrono
    show chainLB d (firedDeadlines ((stepOp s op).2 ++ (runOps (stepOp s op).1 ops).2))
    rw [firedDeadlines_append]
    cases op with
    | schedule now delay rp =>
      have hc := hchrono
      simp only [chrono, Bool.and_eq_true, decide_eq_true_eq] at hc
      obtain ⟨htn, hc2⟩ := hc
      have h1 : firedDeadlines (stepOp s (Op.schedule now delay rp)).2 = [] := rfl
      rw [h1, List.nil_append]
      refine ih _ d now (Inv_stepOp s _ hInv) ?_ (le_trans hdt htn) hc2
      intro e he
      rcases (insertEntry_mem _ _ e).mp he with rfl | he
      · exact le_trans (le_trans hdt htn) (Nat.le_add_right now delay)
      · exact hlb e he
    | cancel c =>
      have h1 : firedDeadlines (stepOp s (Op.cancel c)).2 = [] := rfl
      rw [h1, List.nil_append]
      have hc2 : chrono t ops = true := hchrono
      refine ih _ d t (Inv_stepOp s _ hInv) ?_ hdt hc2
      intro e he
      exact hlb e ((cancel_timers_sublist s c).subset he)
    | shutdown =>
      have h1 : firedDeadlines (stepOp s Op.shutdown).2 = [] := rfl
      rw [h1, List.nil_append]
      have hc2 : chrono t ops = true := hchrono
      exact ih _ d t (Inv_stepOp s _ hInv) hlb hdt hc2
    | tick now =>
      have hc := hchrono
      simp only [chrono, Bool.and_eq_true, decide_eq_true_eq] at hc
      obtain ⟨htn, hc2⟩ := hc
      rcases tick_cases s now with h | ⟨deadline, data, rest, hrun, htm, hdue, h⟩
      · rw [h]
        show chainLB d ([] ++ firedDeadlines (runOps s ops).2)
        rw [List.nil_append]
        exact ih s d now hInv hlb (le_trans hdt htn) hc2
      · have hSt : (stepOp s (Op.tick now)).1 =
            ⟨if data.rep ≠ 0 then
                insertEntry (deadline + data.period,
                  ⟨data.id, decRepeat data.rep, data.period⟩) rest
              else rest, s.running_, s.next_id_⟩ := by rw [h]
        have hEv : (stepOp s (Op.tick now)).2 = [Event.fired data.id deadline] := by
          rw [h]
        rw [hEv]
        have hdd : d ≤ deadline := hlb (deadline, data) (htm ▸ List.mem_cons_self _ _)
        have hsorted : ∀ e ∈ rest, deadline ≤ e.1 := by
          have hp := hInv.2.2
          rw [htm] at hp
          exact List.pairwise_cons.mp hp |>.1
        have hlb' : ∀ e ∈ (stepOp s (Op.tick now)).1.timers_, deadline ≤ e.1 := by
          rw [hSt]
          intro e he
          simp only at he
          by_cases hrepc : data.rep ≠ 0
          · rw [if_pos hrepc] at he
            rcases (insertEntry_mem _ _ e).mp he with rfl | he
            · exact Nat.le_add_right deadline data.period
            · exact hsorted e he
          · rw [if_neg hrepc] at he
            exact hsorted e he
        have hrest := ih (stepOp s (Op.tick now)).1 deadline now
          (Inv_stepOp s _ hInv) hlb' hdue hc2
        exact ⟨hdd, hrest⟩

/-- Claim C5: callbacks are invoked in non-decreasing deadline order.  First
part: along any run with a monotone clock from a fresh service, the
sequence of fired deadlines is a non-decreasing chain.  Second part: a
firing worker iteration always fires an entry whose deadline is least among
the pending entries. -/
theorem c5_fires_in_deadline_order :
    (∀ ops : List Op, chrono 0 ops = true →
      chainLB 0 (firedDeadlines (runOps TimerService.init ops).2)) ∧
    (∀ (s : TimerService) (now i dl : Nat), sortedStore s.timers_ →
      (s.worker_step now).2 = some (i, dl) →
      ∀ e ∈ s.timers_, dl ≤ e.1) := by
  constructor
  · intro ops hc
    refine fired_deadlines_mono ops TimerService.init 0 0 Inv_init ?_ (le_refl 0) hc
    intro e he
    cases he
  · intro s now i dl hs h e he
    obtain ⟨data, rest, htm, _, _, _⟩ := worker_step_some_inv s now i dl h
    rw [htm] at hs he
    rcases List.mem_cons.mp he with rfl | he
    · exact le_refl _
    · exact (List.pairwise_cons.mp hs).1 e he

/-- Witness for C5: a run scheduling deadlines 5 and 3 then ticking, and a
firing step on a concrete two-entry store. -/
theorem c5_witness :
    chainLB 0 (firedDeadlines (runOps TimerService.init
      [Op.schedule 0 5 0, Op.schedule 1 2 0, Op.tick 10, Op.tick 10]).2) ∧
    (∀ e ∈ (⟨[(3, ⟨1, 0, 3⟩), (5, ⟨2, 0, 5⟩)], true, 3⟩ : TimerService).timers_,
      3 ≤ e.1) :=
  ⟨c5_fires_in_deadline_order.1 [Op.schedule 0 5 0, Op.schedule 1 2 0,
      Op.tick 10, Op.tick 10] (by decide),
    c5_fires_in_deadline_order.2 ⟨[(3, ⟨1, 0, 3⟩), (5, ⟨2, 0, 5⟩)], true, 3⟩ 10 1 3
      (by decide) (by decide)⟩

/-- Both ids of an idBefore pair are in the store. -/
theorem idBefore_memId (a b : Nat) : ∀ (l : List Entry),
    idBefore a b l → memId a l ∧ memId b l := by
  intro l
  induction l with
  | nil => intro h; cases h
  | cons x xs ih =>
    rintro (⟨hx, hb⟩ | h)
    · refine ⟨⟨x, List.mem_cons_self _ _, hx⟩, ?_⟩
      rcases hb with ⟨e, he, hid⟩
      exact ⟨e, List.mem_cons_of_mem _ he, hid⟩
    · obtain ⟨⟨ea, hea, hida⟩, ⟨eb, heb, hidb⟩⟩ := ih h
      exact ⟨⟨ea, List.mem_cons_of_mem _ hea, hida⟩,
        ⟨eb, List.mem_cons_of_mem _ heb, hidb⟩⟩

/-- A multimap insertion never swaps two entries already present. -/
theorem idBefore_insertEntry (a b : Nat) (e : Entry) : ∀ (l : List Entry),
    idBefore a b l → idBefore a b (insertEntry e l) := by
  intro l
  induction l with
  | nil => intro h; cases h
  | cons x xs ih =>
    intro h
    simp only [insertEntry]
    split
    · rcases h with ⟨hx, hb⟩ | h
      · exact Or.inl ⟨hx, (memId_insertEntry b e xs).mpr (Or.inr hb)⟩
      · exact Or.inr (ih h)
    · exact Or.inr h

/-- Removing a third id never swaps two entries already present. -/
theorem idBefore_removeById (a b c : Nat) (hca : c ≠ a) (hcb : c ≠ b) :
    ∀ (l l' : List Entry), removeById c l = some l' →
    idBefore a b l → idBefore a b l' := by
  intro l
  induction l with
  | nil => intro l' h _; simp [removeById] at h
  | cons x xs ih =>
    intro l' h hbef
    simp only [removeById] at h
    split at h
    · rename_i hx
      cases h
      rcases hbef with ⟨hxa, hb⟩ | hrest
      · exact absurd (hx.symm.trans hxa) hca
      · exact hrest
    · rename_i hx
      rcases Option.map_eq_some'.mp h with ⟨ys, hys, rfl⟩
      rcases hbef with ⟨hxa, hb⟩ | hrest
      · exact Or.inl ⟨hxa,
          (removeById_memId c b (fun hbc => hcb hbc.symm) xs ys hys).mpr hb⟩
      · exact Or.inr (ih ys hys hrest)

/-- Inserting an entry whose deadline is at least that of a pending entry
of a sorted store places it after that entry: ties go to the earlier
insertion. -/
theorem idBefore_insert_after (e : Entry) : ∀ (l : List Entry) (x : Entry),
    sortedStore l → x ∈ l → x.1 ≤ e.1 →
    idBefore x.2.id e.2.id (insertEntry e l) := by
  intro l
  induction l with
  | nil => intro x _ hx _; cases hx
  | cons y ys ih =>
    intro x hs hx hle
    simp only [insertEntry]
    split
    · rename_i hy
      rcases List.mem_cons.mp hx with rfl | hx
      · exact Or.inl ⟨rfl, (memId_insertEntry _ _ _).mpr (Or.inl rfl)⟩
      · exact Or.inr (ih x (List.pairwise_cons.mp hs).2 hx hle)
    · rename_i hy
      push_neg at hy
      exfalso
      rcases List.mem_cons.mp hx with rfl | hx
      · omega
      · have hxy := (List.pairwise_cons.mp hs).1 x hx
        omega

/-- A non-firing event is transparent for the first-firing order. -/
theorem aBeforeB_skip (a b : Nat) (e : Event) (evs : List Event)
    (hb : isFired b e = false) (ha : isFired a e = false) :
    aBeforeB a b (e :: evs) ↔ aBeforeB a b evs := by
  simp [aBeforeB, hb, ha]

/-- Once a fires, the first-firing order holds whatever follows. -/
theorem aBeforeB_fire_a (a b da : Nat) (evs : List Event) (hab : a ≠ b) :
    aBeforeB a b (Event.fired a da :: evs) := by
  have hb : isFired b (Event.fired a da) = false := by simp [isFired, hab]
  have ha : isFired a (Event.fired a da) = true := by simp [isFired]
  simp [aBeforeB, hb, ha]

/-- If b never fires at all, the first-firing order holds. -/
theorem aBeforeB_of_no_fired_b (a b : Nat) : ∀ (evs : List Event),
    firedCount evs b = 0 → aBeforeB a b evs := by
  intro evs
  induction evs with
  | nil => intro _; trivial
  | cons e evs ih =>
    intro h
    have hb : isFired b e = false := by
      by_contra hc
      rw [Bool.not_eq_false] at hc
      have : firedCount (e :: evs) b = firedCount evs b + 1 := by
        simp [firedCount, List.filter, hc]
      omega
    have h' : firedCount evs b = 0 := by
      have : firedCount (e :: evs) b = firedCount evs b := by
        simp [firedCount, List.filter, hb]
      omega
    by_cases ha : isFired a e = true
    · simp [aBeforeB, hb, ha]
    · have ha' : isFired a e = false := by
        revert ha
        cases isFired a e <;> simp
      rw [aBeforeB_skip a b e evs hb ha']
      exact ih h'

/-- While an entry with id a sits before an entry with id b in the store
and a is never cancelled, no firing of b can precede the first firing of
a in the rest of the run: the worker always takes the store head. -/
theorem idBefore_run (ops : List Op) : ∀ (s : TimerService) (a b : Nat),
    Inv s → a ≠ b → idBefore a b s.timers_ → Op.cancel a ∉ ops →
    aBeforeB a b (runOps s ops).2 := by
  induction ops with
  | nil => intro s a b _ _ _ _; trivial
  | cons op ops ih =>
    intro s a b hInv hab hbef hnc
    have hnc' : Op.cancel a ∉ ops := fun h => hnc (List.mem_cons_of_mem _ h)
    have hInv' := Inv_stepOp s op hInv
    show aBeforeB a b ((stepOp s op).2 ++ (runOps (stepOp s op).1 ops).2)
    cases op with
    | schedule now delay rp =>
      show aBeforeB a b (Event.scheduled s.next_id_ (now + delay) ::
        (runOps (stepOp s (Op.schedule now delay rp)).1 ops).2)
      rw [aBeforeB_skip a b (Event.scheduled s.next_id_ (now + delay)) _ rfl rfl]
      exact ih _ a b hInv' hab (idBefore_insertEntry a b _ _ hbef) hnc'
    | shutdown =>
      show aBeforeB a b ([] ++ (runOps (stepOp s Op.shutdown).1 ops).2)
      rw [List.nil_append]
      exact ih _ a b hInv' hab hbef hnc'
    | cancel c =>
      have hca : c ≠ a := by
        intro hc
        exact hnc (by rw [hc]; exact List.mem_cons_self _ _)
      show aBeforeB a b (Event.cancelled c (s.cancel c).2 ::
        (runOps (stepOp s (Op.cancel c)).1 ops).2)
      rw [aBeforeB_skip a b (Event.cancelled c (s.cancel c).2) _ rfl rfl]
      by_cases hcb : c = b
      · subst hcb
        have hmem : memId c s.timers_ := (idBefore_memId a c _ hbef).2
        have htrue : (s.cancel c).2 = true := (cancel_true_iff s c).mpr hmem
        have hrem : removeById c s.timers_ = some (s.cancel c).1.timers_ := by
          unfold TimerService.cancel
          cases hr : removeById c s.timers_ with
          | none => exact absurd hmem ((removeById_eq_none c s.timers_).mp hr)
          | some l' => rfl
        have habs : ¬ memId c (s.cancel c).1.timers_ :=
          removeById_not_memId c s.timers_ _ hInv.2.1 hrem
        have hlt : c < s.next_id_ := by
          rcases hmem with ⟨e, he, hid⟩
          exact hid ▸ hInv.1 e he
        have hlt' : c < (stepOp s (Op.cancel c)).1.next_id_ := by
          show c < (s.cancel c).1.next_id_
          rw [cancel_next_id]
          exact hlt
        have habsrun := absent_run ops (stepOp s (Op.cancel c)).1 c hlt' habs
        exact aBeforeB_of_no_fired_b a c _ habsrun.2.2
      · have hbef' : idBefore a b (stepOp s (Op.cancel c)).1.timers_ := by
          show idBefore a b (s.cancel c).1.timers_
          unfold TimerService.cancel
          cases hr : removeById c s.timers_ with
          | none => exact hbef
          | some l' => exact idBefore_removeById a b c hca hcb _ l' hr hbef
        exact ih _ a b hInv' hab hbef' hnc'
    | tick now =>
      rcases tick_cases s now with h | ⟨deadline, data, rest, hrun, htm, hdue, h⟩
      · rw [h]
        show aBeforeB a b ([] ++ (runOps s ops).2)
        rw [List.nil_append]
        exact ih s a b hInv hab hbef hnc'
      · have hSt : (stepOp s (Op.tick now)).1 =
            ⟨if data.rep ≠ 0 then
                insertEntry (deadline + data.period,
                  ⟨data.id, decRepeat data.rep, data.period⟩) rest
              else rest, s.running_, s.next_id_⟩ := by rw [h]
        have hEv : (stepOp s (Op.tick now)).2 = [Event.fired data.id deadline] := by
          rw [h]
        have hbef2 : idBefore a b ((deadline, data) :: rest) := htm ▸ hbef
        have hnotin : ∀ x ∈ rest, x.2.id ≠ data.id := by
          have hn := hInv.2.1
          unfold idsNodup at hn
          rw [htm] at hn
          intro x hx hc
          exact (List.nodup_cons.mp hn).1 (List.mem_map.mpr ⟨x, hx, hc⟩)
        have hnb : data.id ≠ b := by
          intro hc
          rcases hbef2 with ⟨hxa, _⟩ | hrest2
          · exact hab (hxa.symm.trans hc)
          · rcases (idBefore_memId a b rest hrest2).2 with ⟨x, hx, hid⟩
            exact hnotin x hx (hid.trans hc.symm)
        rw [hEv, List.singleton_append]
        by_cases hda : data.id = a
        · rw [hda]
          exact aBeforeB_fire_a a b deadline _ hab
        · have hbfalse : isFired b (Event.fired data.id deadline) = false := by
            simp [isFired, hnb]
          have hafalse : isFired a (Event.fired data.id deadline) = false := by
            simp [isFired, hda]
          rw [aBeforeB_skip a b _ _ hbfalse hafalse]
          have hbefr : idBefore a b rest := by
            rcases hbef2 with ⟨hxa, _⟩ | hr
            · exact absurd hxa hda
            · exact hr
          have hbef' : idBefore a b (stepOp s (Op.tick now)).1.timers_ := by
            rw [hSt]
            split
            · exact idBefore_insertEntry a b _ rest hbefr
            · exact hbefr
          exact ih _ a b hInv' hab hbef' hnc'

/-- Claim C6: entries sharing a deadline fire in insertion order.  First
part: scheduling a new timer whose deadline is not earlier than a pending
entry's places the new entry after it in the store (multimap upper-bound
insertion), so the earlier registration stays first among equal deadlines.
Second part: once an entry with id a sits before an entry with id b in the
store and a is never cancelled, no firing of b precedes the first firing of
a; when both fire, the callback of a runs before the callback of b. -/
theorem c6_equal_deadline_insertion_order :
    (∀ (s : TimerService) (now delay : Nat) (rp : Int) (dA : Nat) (dataA : TimerData),
      sortedStore s.timers_ → (dA, dataA) ∈ s.timers_ → dA ≤ now + delay →
      idBefore dataA.id s.next_id_ (s.schedule now delay rp).1.timers_) ∧
    (∀ (ops : List Op) (s : TimerService) (a b : Nat),
      Inv s → a ≠ b → idBefore a b s.timers_ → Op.cancel a ∉ ops →
      aBeforeB a b (runOps s ops).2) := by
  constructor
  · intro s now delay rp dA dataA hs hmem hle
    exact idBefore_insert_after (now + delay, ⟨s.next_id_, rp, delay⟩)
      s.timers_ (dA, dataA) hs hmem hle
  · exact fun ops s a b h1 h2 h3 h4 => idBefore_run ops s a b h1 h2 h3 h4

/-- Witness for C6: scheduling a second timer at the same deadline 5 lands
it behind the pending one, and on a store holding two entries with equal
deadline ids 1 then 2, ticks fire 1 before 2. -/
theorem c6_witness :
    idBefore 1 2
      ((⟨[(5, ⟨1, 0, 5⟩)], true, 2⟩ : TimerService).schedule 3 2 0).1.timers_ ∧
    aBeforeB 1 2
      (runOps (⟨[(5, ⟨1, 0, 5⟩), (5, ⟨2, 0, 5⟩)], true, 3⟩ : TimerService)
        [Op.tick 10, Op.tick 10]).2 :=
  ⟨c6_equal_deadline_insertion_order.1 ⟨[(5, ⟨1, 0, 5⟩)], true, 2⟩ 3 2 0 5 ⟨1, 0, 5⟩
      (by decide) (by decide) (by decide),
    c6_equal_deadline_insertion_order.2 [Op.tick 10, Op.tick 10]
      ⟨[(5, ⟨1, 0, 5⟩), (5, ⟨2, 0, 5⟩)], true, 3⟩ 1 2
      (by decide) (by decide) (by decide) (by decide)⟩

end TimerSpec
